import Mathlib

/-!
# RavenDB Go client: lazy operations and revision retrieval

A shallow embedding of `lazy.go`, `get_revision_operation.go` and
`advanced_session_extention_base.go`, followed by the properties proved about them.

Conventions of the embedding

* A Go pointer receiver becomes explicit state passing: a method takes the state it
  reads and returns the state it leaves behind.
* A Go `nil` (pointer, map, interface, error) is `Option.none`.
* A run-time failure of the Go code (index out of range, failed type assertion, nil
  dereference, map assignment under a key that cannot be hashed) is a value of `Panic`; a method that can fail returns `Except Panic _`
  together with the state reached when it stopped.
* Calls into collaborators that live outside these files (the value factory of a `Lazy`,
  the entity converter of a session) are recorded in a call log carried by the state, so
  that "is called" and "is not called" are statements about that log.
-/

set_option autoImplicit false

namespace Ravendb

/-! ## lazy.go -/

/-- Lazy represents a lazy operation (`type Lazy struct`).  `V` is the type of the result
holder handed to the factory, `E` the type of non-nil errors, `W` the part of the program
state the factory may read and write (it contains what the holder points to).  The mutex
field `mu` has no counterpart: calls are serial here. -/
structure Lazy (V E W : Type) where
  /-- function which, when called, executes lazy operation -/
  valueFactory : V → W → Option E × W
  valueCreated : Bool
  /-- passed by the user, where the result of lazy operation is stored -/
  Value : V
  err : Option E

/-- The Go constructor `newLazy(result, valueFactory, err)`; `valueCreated` gets its zero
value. -/
def newLazy {V E W : Type} (result : V) (valueFactory : V → W → Option E × W)
    (err : Option E) : Lazy V E W :=
  { Value := result, valueFactory := valueFactory, err := err, valueCreated := false }

/-- A `Lazy` instance together with the state its factory works on and the log of factory
invocations made so far (oldest first): the holder passed and the error returned. -/
structure LazyExec (V E W : Type) where
  l : Lazy V E W
  world : W
  calls : List (V × Option E)

/-- A freshly constructed instance in world `w`, no factory call made yet. -/
def LazyExec.start {V E W : Type} (l : Lazy V E W) (w : W) : LazyExec V E W :=
  { l := l, world := w, calls := [] }

/-- IsValueCreated returns true if lazy value has been created (`Lazy.IsValueCreated`). -/
def Lazy.IsValueCreated {V E W : Type} (s : LazyExec V E W) : Bool × LazyExec V E W :=
  match s.l.err with
  | some _ => (false, s)
  | none => (s.l.valueCreated, s)

/-- GetValue executes lazy operation and ensures the Value is set in result variable
provided in NewLazy() (`Lazy.GetValue`). -/
def Lazy.GetValue {V E W : Type} (s : LazyExec V E W) : Option E × LazyExec V E W :=
  match s.l.err with
  | some e => (some e, s)
  | none =>
    if s.l.valueCreated then
      (s.l.err, s)
    else
      let r := s.l.valueFactory s.l.Value s.world
      let l1 : Lazy V E W := { s.l with err := r.1 }
      let l2 : Lazy V E W := { l1 with valueCreated := true }
      (l2.err, { l := l2, world := r.2, calls := s.calls ++ [(s.l.Value, r.1)] })

/-- The two public operations of a `Lazy`. -/
inductive LazyOp where
  | getValue
  | isValueCreated
  deriving DecidableEq, Repr

/-- State left behind by one operation. -/
def LazyOp.step {V E W : Type} (op : LazyOp) (s : LazyExec V E W) : LazyExec V E W :=
  match op with
  | .getValue => (Lazy.GetValue s).2
  | .isValueCreated => (Lazy.IsValueCreated s).2

/-- State left behind by a serial sequence of operations, first operation first. -/
def LazyOp.run {V E W : Type} (ops : List LazyOp) (s : LazyExec V E W) : LazyExec V E W :=
  ops.foldl (fun st op => op.step st) s

/-- State left behind by `n` serial `GetValue` calls. -/
def afterGetValues {V E W : Type} (n : Nat) (s : LazyExec V E W) : LazyExec V E W :=
  LazyOp.run (List.replicate n LazyOp.getValue) s

/-! ## Values shared with the collaborators of get_revision_operation.go -/

/-- Ways in which the Go run time stops a call. -/
inductive Panic where
  /-- raised by `panicIf(cond, msg)` -/
  | message (msg : String)
  /-- slice index `index` read in a slice of `length` elements -/
  | indexOutOfRange (index length : Nat)
  /-- failed single-result type assertion `v.(ObjectNode)` -/
  | interfaceConversion
  /-- method or field access through a nil pointer -/
  | nilDereference
  /-- map assignment `m[k] = v` under a key the run time cannot hash -/
  | unhashableKey
  deriving DecidableEq, Repr

/-- Modelled from the spec: the values of a semi-structured document (Go `interface{}` as
produced by the JSON layer): null, boolean, number (kept as its literal text), string,
nested document, ordered sequence of values. -/
inductive JsonValue where
  | null
  | bool (b : Bool)
  | number (literal : String)
  | string (s : String)
  | document (fields : List (String × JsonValue))
  | sequence (items : List JsonValue)

/-- Go map assignment `m[k] = v` on a map kept as an association list with distinct keys:
an existing binding of `k` is replaced in place, otherwise a binding is added. -/
def mapSet {K V : Type} [DecidableEq K] : List (K × V) → K → V → List (K × V)
  | [], k, v => [(k, v)]
  | (k', v') :: rest, k, v =>
    if k' = k then (k, v) :: rest else (k', v') :: mapSet rest k v

/-- Go map read `v, ok := m[k]`: `none` is `ok == false`. -/
def mapGet {K V : Type} [DecidableEq K] : List (K × V) → K → Option V
  | [], _ => none
  | (k', v') :: rest, k => if k' = k then some v' else mapGet rest k

/-- ObjectNode is the Go type of a raw document, a map from string keys to values.  A nil
`ObjectNode` is `none : Option ObjectNode`. -/
abbrev ObjectNode : Type := List (String × JsonValue)

/-- Modelled from the spec: the reserved key holding a document's system metadata
(`Constants_Documents_Metadata_KEY`, declared outside these files). -/
def Constants_Documents_Metadata_KEY : String := "@metadata"

/-- Modelled from the spec: the reserved metadata key of the document id
(`Constants_Documents_Metadata_ID`, declared outside these files). -/
def Constants_Documents_Metadata_ID : String := "@id"

/-- Modelled from the spec: the reserved metadata key of the change vector
(`Constants_Documents_Metadata_CHANGE_VECTOR`, declared outside these files). -/
def Constants_Documents_Metadata_CHANGE_VECTOR : String := "@change-vector"

/-- Modelled from the spec: the `TrackedEntity` record (`DocumentInfo`, declared outside these
files) with the five fields written by `getRevision`. -/
structure DocumentInfo (Entity : Type) where
  id : String
  changeVector : Option String
  document : Option ObjectNode
  metadata : Option ObjectNode
  entity : Option Entity

/-- Modelled from the spec: `NewDocumentInfo()`, a record with every field at its zero value. -/
def NewDocumentInfo {Entity : Type} : DocumentInfo Entity :=
  { id := "", changeVector := none, document := none, metadata := none, entity := none }

/-- Setter `setId` of `DocumentInfo`. -/
def DocumentInfo.setId {Entity : Type} (d : DocumentInfo Entity) (id : String) :
    DocumentInfo Entity := { d with id := id }

/-- Setter `setChangeVector` of `DocumentInfo`. -/
def DocumentInfo.setChangeVector {Entity : Type} (d : DocumentInfo Entity)
    (changeVector : Option String) : DocumentInfo Entity := { d with changeVector := changeVector }

/-- Setter `setDocument` of `DocumentInfo`. -/
def DocumentInfo.setDocument {Entity : Type} (d : DocumentInfo Entity) (document : ObjectNode) :
    DocumentInfo Entity := { d with document := some document }

/-- Setter `setMetadata` of `DocumentInfo`; the argument may be a nil map. -/
def DocumentInfo.setMetadata {Entity : Type} (d : DocumentInfo Entity)
    (metadata : Option ObjectNode) : DocumentInfo Entity := { d with metadata := metadata }

/-- Setter `setEntity` of `DocumentInfo`. -/
def DocumentInfo.setEntity {Entity : Type} (d : DocumentInfo Entity) (entity : Entity) :
    DocumentInfo Entity := { d with entity := some entity }

/-- Functions of the repository that these files call and do not define, taken as parameters.
`Clazz` stands for `reflect.Type`, `Entity` for the `interface{}` values handed out as
entities, `Conv` for the state of the entity converter (`getEntityToJson()`), which a call
may change: a converter that allocates a fresh entity per call is one instance, a pure
function another. -/
structure Externals (Clazz Entity Conv : Type) where
  Defaults_defaultValue : Clazz → Entity
  convertToEntity : Clazz → String → ObjectNode → Conv → Entity × Conv
  jsonGetAsText : ObjectNode → String → String
  jsonGetAsTextPointer : ObjectNode → String → Option String

/-- One recorded call `convertToEntity(clazz, id, document)` and the entity it returned. -/
structure ConvertCall (Clazz Entity : Type) where
  clazz : Clazz
  id : String
  document : ObjectNode
  entity : Entity

/-- The values of the entity type that the Go run time can hash, that is, use as a key of
`map[interface{}]*DocumentInfo`: a pointer or a struct of comparable fields can be hashed, a
slice, a map or a func cannot, and an assignment under such a key panics. -/
class GoHashable (Entity : Type) where
  hashable : Entity → Bool

/-- The part of `InMemoryDocumentSessionOperations` these files touch: the identity map
`documentsByEntity`, the entity converter, the deferred-command queue; `convertCalls` is the
log of converter calls made so far, oldest first.  `keysHashable` is the invariant of a Go
map: whatever is a key of it could be hashed. -/
structure InMemoryDocumentSessionOperations (Clazz Entity Conv Cmd : Type)
    [GoHashable Entity] where
  documentsByEntity : List (Entity × DocumentInfo Entity)
  entityToJson : Conv
  deferredCommands : List Cmd
  convertCalls : List (ConvertCall Clazz Entity)
  keysHashable : ∀ p ∈ documentsByEntity, GoHashable.hashable p.1 = true

/-- The Go map assignment `s.documentsByEntity[entity] = info` for a key that can be hashed. -/
def InMemoryDocumentSessionOperations.assign {Clazz Entity Conv Cmd : Type}
    [DecidableEq Entity] [GoHashable Entity]
    (s : InMemoryDocumentSessionOperations Clazz Entity Conv Cmd) (entity : Entity)
    (h : GoHashable.hashable entity = true) (info : DocumentInfo Entity) :
    InMemoryDocumentSessionOperations Clazz Entity Conv Cmd :=
  { s with
    documentsByEntity := mapSet s.documentsByEntity entity info
    keysHashable := by
      have key : ∀ m : List (Entity × DocumentInfo Entity),
          (∀ p ∈ m, GoHashable.hashable p.1 = true) →
          ∀ p ∈ mapSet m entity info, GoHashable.hashable p.1 = true := by
        intro m
        induction m with
        | nil =>
          intro _ p hp
          simp only [mapSet, List.mem_singleton] at hp
          rw [hp]
          exact h
        | cons a rest ih =>
          intro ha p hp
          obtain ⟨k', v'⟩ := a
          by_cases hk : k' = entity
          · simp only [mapSet, hk, if_true, List.mem_cons] at hp
            rcases hp with hp | hp
            · rw [hp]
              exact h
            · exact ha p (List.mem_cons_of_mem _ hp)
          · simp only [mapSet, hk, if_false, List.mem_cons] at hp
            rcases hp with hp | hp
            · rw [hp]
              exact ha _ (List.mem_cons_self _ _)
            · exact ih (fun q hq => ha q (List.mem_cons_of_mem _ hq)) p hp
      exact key s.documentsByEntity s.keysHashable }

/-- Modelled from the spec: the request descriptor (`GetRevisionsCommand`, declared outside
these files), built from (id, start offset, page size, metadata-only flag) or from an explicit
change-vector list. -/
structure GetRevisionsCommand where
  _id : String
  _start : Int
  _pageSize : Int
  _metadataOnly : Bool
  _changeVectors : List String
  deriving DecidableEq, Repr

/-- Modelled from the spec: `NewGetRevisionsCommandRange`, the range form of the request; it
carries no change vectors. -/
def NewGetRevisionsCommandRange (id : String) (start pageSize : Int) (metadataOnly : Bool) :
    GetRevisionsCommand :=
  { _id := id, _start := start, _pageSize := pageSize, _metadataOnly := metadataOnly,
    _changeVectors := [] }

/-- Accessor `getChangeVectors` of the command. -/
def GetRevisionsCommand.getChangeVectors (c : GetRevisionsCommand) : List String :=
  c._changeVectors

/-- Modelled from the spec: the result container (`JSONArrayResult`, declared outside these
files), an ordered sequence of raw documents in which a slot may be nil. -/
structure JSONArrayResult where
  Results : List (Option ObjectNode)

/-- Accessor `getResults` of the result container. -/
def JSONArrayResult.getResults (r : JSONArrayResult) : List (Option ObjectNode) :=
  r.Results

/-- Modelled from the spec: the metadata-only read-view (`MetadataAsDictionary`, declared
outside these files) as left by `NewMetadataAsDictionary(metadata, parent, parentKey)`: the
metadata sub-document it reads from (nil for an empty view), the view it is nested in and the
key it is nested under. -/
inductive MetadataAsDictionary where
  | mk (_source : Option ObjectNode) (_parent : Option MetadataAsDictionary)
      (_parentKey : String)

/-- Modelled from the spec: `NewMetadataAsDictionary(metadata, parent, parentKey)`. -/
def NewMetadataAsDictionary (metadata : Option ObjectNode)
    (parent : Option MetadataAsDictionary) (parentKey : String) : MetadataAsDictionary :=
  .mk metadata parent parentKey

/-- The metadata sub-document a view reads from. -/
def MetadataAsDictionary.source : MetadataAsDictionary → Option ObjectNode
  | .mk source _ _ => source

/-- Modelled from the spec: the value a view exposes under a key, read from its metadata
sub-document; an empty view exposes nothing. -/
def MetadataAsDictionary.get (view : MetadataAsDictionary) (key : String) : Option JsonValue :=
  match view.source with
  | none => none
  | some fields => mapGet fields key

/-- Modelled from the spec: `panicIf(cond, msg)` stops with `msg` when `cond` holds. -/
def panicIf (cond : Bool) (msg : String) : Except Panic Unit :=
  if cond then .error (.message msg) else .ok ()

/-! ## get_revision_operation.go -/

/-- The Go `type GetRevisionOperation struct`.  The session behind the pointer `_session` is
kept inside the operation, so a method that writes to the session returns the operation with
the session it left behind. -/
structure GetRevisionOperation (Clazz Entity Conv Cmd : Type) [GoHashable Entity] where
  _session : InMemoryDocumentSessionOperations Clazz Entity Conv Cmd
  _result : Option JSONArrayResult
  _command : GetRevisionsCommand

section Operation

variable {Clazz Entity Conv Cmd : Type}

/-- The Go constructor `NewGetRevisionOperationRange(session, id, start, pageSize,
metadataOnly)`; a nil session pointer is `none`. -/
def NewGetRevisionOperationRange [GoHashable Entity]
    (session : Option (InMemoryDocumentSessionOperations Clazz Entity Conv Cmd)) (id : String)
    (start pageSize : Int) (metadataOnly : Bool) :
    Except Panic (GetRevisionOperation Clazz Entity Conv Cmd) :=
  match panicIf session.isNone "Session cannot be null" with
  | .error p => .error p
  | .ok _ =>
    match panicIf (id == "") "Id cannot be null" with
    | .error p => .error p
    | .ok _ =>
      match session with
      | none => .error .nilDereference
      | some s =>
        .ok { _session := s, _result := none,
              _command := NewGetRevisionsCommandRange id start pageSize metadataOnly }

/-- The Go method `createRequest`. -/
def GetRevisionOperation.createRequest [GoHashable Entity] (o : GetRevisionOperation Clazz Entity Conv Cmd) :
    GetRevisionsCommand :=
  o._command

/-- The Go method `setResult`; a nil result pointer is `none`. -/
def GetRevisionOperation.setResult [GoHashable Entity]
    (o : GetRevisionOperation Clazz Entity Conv Cmd)
    (result : Option JSONArrayResult) : GetRevisionOperation Clazz Entity Conv Cmd :=
  { o with _result := result }

/-- The Go method `getRevision(clazz, document)`: the value returned, or the panic raised, and
the operation (with its session) left behind.  The assignment to `documentsByEntity` comes
after the converter call and panics when the entity returned cannot be hashed. -/
def GetRevisionOperation.getRevision [DecidableEq Entity] [GoHashable Entity]
    (x : Externals Clazz Entity Conv)
    (o : GetRevisionOperation Clazz Entity Conv Cmd) (clazz : Clazz)
    (document : Option ObjectNode) :
    Except Panic Entity × GetRevisionOperation Clazz Entity Conv Cmd :=
  match document with
  | none => (.ok (x.Defaults_defaultValue clazz), o)
  | some doc =>
    -- `metadata` and `id` after the `if v, ok := document[KEY]; ok` block
    let read : Except Panic (Option ObjectNode × String) :=
      match mapGet doc Constants_Documents_Metadata_KEY with
      | none => .ok (none, "")
      | some (.document fields) =>
        .ok (some fields, x.jsonGetAsText fields Constants_Documents_Metadata_ID)
      | some _ => .error .interfaceConversion
    match read with
    | .error p => (.error p, o)
    | .ok (metadata, id) =>
      let changeVector : Option String :=
        match metadata with
        | none => none
        | some fields => x.jsonGetAsTextPointer fields Constants_Documents_Metadata_CHANGE_VECTOR
      let converted := x.convertToEntity clazz id doc o._session.entityToJson
      let entity := converted.1
      -- the session once the converter has returned
      let called : InMemoryDocumentSessionOperations Clazz Entity Conv Cmd :=
        { o._session with
          entityToJson := converted.2
          convertCalls := o._session.convertCalls ++
            [{ clazz := clazz, id := id, document := doc, entity := entity }] }
      let documentInfo : DocumentInfo Entity :=
        ((((NewDocumentInfo.setId id).setChangeVector changeVector).setDocument doc).setMetadata
          metadata).setEntity entity
      if h : GoHashable.hashable entity = true then
        (.ok entity, { o with _session := called.assign entity h documentInfo })
      else
        (.error .unhashableKey, { o with _session := called })

/-- Slot `i` of the attached result, as read by `o._result.getResults()[i]`. -/
def GetRevisionOperation.resultSlot [GoHashable Entity]
    (o : GetRevisionOperation Clazz Entity Conv Cmd) (i : Nat) :
    Except Panic (Option ObjectNode) :=
  match o._result with
  | none => .error .nilDereference
  | some r =>
    match r.getResults[i]? with
    | none => .error (.indexOutOfRange i r.getResults.length)
    | some document => .ok document

/-- The loop of `getRevisionsFor`: `remaining` iterations are left, `i` is the loop index and
`results` holds the slots `0 .. i-1` filled so far. -/
def GetRevisionOperation.getRevisionsForLoop [DecidableEq Entity] [GoHashable Entity]
    (x : Externals Clazz Entity Conv) (clazz : Clazz) :
    (remaining i : Nat) → List Entity → GetRevisionOperation Clazz Entity Conv Cmd →
      Except Panic (List Entity) × GetRevisionOperation Clazz Entity Conv Cmd
  | 0, _, results, o => (.ok results, o)
  | remaining + 1, i, results, o =>
    match o.resultSlot i with
    | .error p => (.error p, o)
    | .ok document =>
      match o.getRevision x clazz document with
      | (.error p, o') => (.error p, o')
      | (.ok rev, o') =>
        GetRevisionOperation.getRevisionsForLoop x clazz remaining (i + 1) (results ++ [rev]) o'

/-- The Go method `getRevisionsFor(clazz)`. -/
def GetRevisionOperation.getRevisionsFor [DecidableEq Entity] [GoHashable Entity]
    (x : Externals Clazz Entity Conv)
    (o : GetRevisionOperation Clazz Entity Conv Cmd) (clazz : Clazz) :
    Except Panic (List Entity) × GetRevisionOperation Clazz Entity Conv Cmd :=
  match o._result with
  | none => (.error .nilDereference, o)
  | some r =>
    let resultsCount := r.getResults.length
    GetRevisionOperation.getRevisionsForLoop x clazz resultsCount 0 [] o

/-- The loop of `getRevisionsMetadataFor`: `remaining` iterations are left, `i` is the loop
index and `results` holds the views of the slots `0 .. i-1`.  Reading the metadata key of a nil
document finds nothing, as a read of a nil Go map does. -/
def GetRevisionOperation.getRevisionsMetadataForLoop [GoHashable Entity] :
    (remaining i : Nat) → List MetadataAsDictionary →
      GetRevisionOperation Clazz Entity Conv Cmd →
      Except Panic (List MetadataAsDictionary) × GetRevisionOperation Clazz Entity Conv Cmd
  | 0, _, results, o => (.ok results, o)
  | remaining + 1, i, results, o =>
    match o.resultSlot i with
    | .error p => (.error p, o)
    | .ok document =>
      let read : Except Panic (Option ObjectNode) :=
        match document with
        | none => .ok none
        | some doc =>
          match mapGet doc Constants_Documents_Metadata_KEY with
          | none => .ok none
          | some (.document fields) => .ok (some fields)
          | some _ => .error .interfaceConversion
      match read with
      | .error p => (.error p, o)
      | .ok metadata =>
        GetRevisionOperation.getRevisionsMetadataForLoop remaining (i + 1)
          (results ++ [NewMetadataAsDictionary metadata none ""]) o

/-- The Go method `getRevisionsMetadataFor()`. -/
def GetRevisionOperation.getRevisionsMetadataFor [GoHashable Entity]
    (o : GetRevisionOperation Clazz Entity Conv Cmd) :
    Except Panic (List MetadataAsDictionary) × GetRevisionOperation Clazz Entity Conv Cmd :=
  match o._result with
  | none => (.error .nilDereference, o)
  | some r =>
    let resultsCount := r.getResults.length
    GetRevisionOperation.getRevisionsMetadataForLoop resultsCount 0 [] o

/-- The Go method `getRevision2(clazz)`. -/
def GetRevisionOperation.getRevision2 [DecidableEq Entity] [GoHashable Entity]
    (x : Externals Clazz Entity Conv)
    (o : GetRevisionOperation Clazz Entity Conv Cmd) (clazz : Clazz) :
    Except Panic Entity × GetRevisionOperation Clazz Entity Conv Cmd :=
  match o._result with
  | none => (.ok (x.Defaults_defaultValue clazz), o)
  | some _ =>
    match o.resultSlot 0 with
    | .error p => (.error p, o)
    | .ok document => o.getRevision x clazz document

/-- The loop of `getRevisions`: `remaining` iterations are left, `i` is the loop index and
`results` the map built so far. -/
def GetRevisionOperation.getRevisionsLoop [DecidableEq Entity] [GoHashable Entity]
    (x : Externals Clazz Entity Conv) (clazz : Clazz) :
    (remaining i : Nat) → List (String × Entity) → GetRevisionOperation Clazz Entity Conv Cmd →
      Except Panic (List (String × Entity)) × GetRevisionOperation Clazz Entity Conv Cmd
  | 0, _, results, o => (.ok results, o)
  | remaining + 1, i, results, o =>
    match o._command.getChangeVectors[i]? with
    | none => (.error (.indexOutOfRange i o._command.getChangeVectors.length), o)
    | some changeVector =>
      if changeVector = "" then
        GetRevisionOperation.getRevisionsLoop x clazz remaining (i + 1) results o
      else
        match o.resultSlot i with
        | .error p => (.error p, o)
        | .ok v =>
          match o.getRevision x clazz v with
          | (.error p, o') => (.error p, o')
          | (.ok rev, o') =>
            GetRevisionOperation.getRevisionsLoop x clazz remaining (i + 1)
              (mapSet results changeVector rev) o'

/-- The Go method `getRevisions(clazz)`. -/
def GetRevisionOperation.getRevisions [DecidableEq Entity] [GoHashable Entity]
    (x : Externals Clazz Entity Conv)
    (o : GetRevisionOperation Clazz Entity Conv Cmd) (clazz : Clazz) :
    Except Panic (List (String × Entity)) × GetRevisionOperation Clazz Entity Conv Cmd :=
  GetRevisionOperation.getRevisionsLoop x clazz o._command.getChangeVectors.length 0 [] o

/-- One call of a method of the operation, with its arguments. -/
inductive OperationCall (Clazz : Type) where
  | createRequest
  | setResult (result : Option JSONArrayResult)
  | getRevision (clazz : Clazz) (document : Option ObjectNode)
  | getRevisionsFor (clazz : Clazz)
  | getRevisionsMetadataFor
  | getRevision2 (clazz : Clazz)
  | getRevisions (clazz : Clazz)

/-- The operation left behind by one method call, whether the call returned or panicked. -/
def OperationCall.apply [DecidableEq Entity] [GoHashable Entity]
    (x : Externals Clazz Entity Conv)
    (call : OperationCall Clazz) (o : GetRevisionOperation Clazz Entity Conv Cmd) :
    GetRevisionOperation Clazz Entity Conv Cmd :=
  match call with
  | .createRequest => o
  | .setResult result => o.setResult result
  | .getRevision clazz document => (o.getRevision x clazz document).2
  | .getRevisionsFor clazz => (o.getRevisionsFor x clazz).2
  | .getRevisionsMetadataFor => o.getRevisionsMetadataFor.2
  | .getRevision2 clazz => (o.getRevision2 x clazz).2
  | .getRevisions clazz => (o.getRevisions x clazz).2

/-- The operation left behind by a serial sequence of method calls, first call first. -/
def OperationCall.run [DecidableEq Entity] [GoHashable Entity]
    (x : Externals Clazz Entity Conv)
    (calls : List (OperationCall Clazz)) (o : GetRevisionOperation Clazz Entity Conv Cmd) :
    GetRevisionOperation Clazz Entity Conv Cmd :=
  calls.foldl (fun st call => call.apply x st) o

/-! ### Vocabulary used to state the properties of the materialization methods -/

/-- The type assertion `v.(ObjectNode)` in `getRevision` cannot fail on this document: the
metadata key is unbound, or bound to a nested document. -/
def metadataIsObject (doc : ObjectNode) : Bool :=
  match mapGet doc Constants_Documents_Metadata_KEY with
  | none => true
  | some (.document _) => true
  | some _ => false

/-- The id that `getRevision` hands to the converter for a document passing
`metadataIsObject`: the text under the id key of the metadata sub-document, the empty string
without metadata. -/
def documentId (x : Externals Clazz Entity Conv) (doc : ObjectNode) : String :=
  match mapGet doc Constants_Documents_Metadata_KEY with
  | some (.document fields) => x.jsonGetAsText fields Constants_Documents_Metadata_ID
  | _ => ""

/-- The metadata sub-document of a raw document: the nested document bound to the metadata
key, nil when the key is unbound. -/
def documentMetadata (doc : ObjectNode) : Option ObjectNode :=
  match mapGet doc Constants_Documents_Metadata_KEY with
  | some (.document fields) => some fields
  | _ => none

/-- The record `getRevision` stores under `entity` for a document passing
`metadataIsObject`. -/
def documentInfoOf (x : Externals Clazz Entity Conv) (doc : ObjectNode) (entity : Entity) :
    DocumentInfo Entity :=
  { id := documentId x doc,
    changeVector := (documentMetadata doc).bind fun fields =>
      x.jsonGetAsTextPointer fields Constants_Documents_Metadata_CHANGE_VECTOR,
    document := some doc,
    metadata := documentMetadata doc,
    entity := some entity }

/-- The session of `o` once the converter call that `getRevision` makes on `doc` has returned:
the converter state has advanced and the call is logged, the identity map is untouched. -/
def GetRevisionOperation.sessionAfterConvert [GoHashable Entity]
    (x : Externals Clazz Entity Conv) (o : GetRevisionOperation Clazz Entity Conv Cmd)
    (clazz : Clazz) (doc : ObjectNode) : InMemoryDocumentSessionOperations Clazz Entity Conv Cmd :=
  { o._session with
    entityToJson := (x.convertToEntity clazz (documentId x doc) doc o._session.entityToJson).2
    convertCalls := o._session.convertCalls ++
      [{ clazz := clazz, id := documentId x doc, document := doc,
         entity := (x.convertToEntity clazz (documentId x doc) doc o._session.entityToJson).1 }] }

/-- The converter calls, in order, of a run that materialized the slots `slots` into `revs`,
position by position: one call per position holding a document and an entity (`none` in
`revs` marks a position that was skipped), made on that document and returning that entity. -/
def converterCallsFor (x : Externals Clazz Entity Conv) (clazz : Clazz) :
    List (Option ObjectNode) → List (Option Entity) → List (ConvertCall Clazz Entity)
  | some doc :: slots, some e :: revs =>
    { clazz := clazz, id := documentId x doc, document := doc, entity := e } ::
      converterCallsFor x clazz slots revs
  | none :: slots, _ :: revs => converterCallsFor x clazz slots revs
  | some _ :: slots, none :: revs => converterCallsFor x clazz slots revs
  | [], _ => []
  | _ :: _, [] => []

end Operation

/-! ## advanced_session_extention_base.go -/

/-- Modelled from the spec: `InMemoryDocumentSessionOperations.DeferMany(commands)`, declared
outside these files: it appends the commands to the deferred-command queue of the session in
the order given. -/
def InMemoryDocumentSessionOperations.DeferMany {Clazz Entity Conv Cmd : Type}
    [GoHashable Entity]
    (s : InMemoryDocumentSessionOperations Clazz Entity Conv Cmd) (commands : List Cmd) :
    InMemoryDocumentSessionOperations Clazz Entity Conv Cmd :=
  { s with deferredCommands := s.deferredCommands ++ commands }

/-- The Go `type AdvancedSessionExtentionBase struct`.  The session behind the pointer
`session` is kept inside the extension, as it is inside the operation.  Every other field is a
reference (pointer or map) copied from the session at construction; `Ref` is the type of the
references to the collaborators declared outside these files. -/
structure AdvancedSessionExtentionBase (Clazz Entity Conv Cmd Ref : Type)
    [GoHashable Entity] where
  session : InMemoryDocumentSessionOperations Clazz Entity Conv Cmd
  documentsByEntity : Ref
  requestExecutor : Ref
  sessionInfo : Ref
  documentStore : Ref
  deferredCommandsMap : Ref
  deletedEntities : Ref
  documentsById : Ref

/-- The Go method `deferMany(commands)`: `e.session.DeferMany(commands)`. -/
def AdvancedSessionExtentionBase.deferMany {Clazz Entity Conv Cmd Ref : Type}
    [GoHashable Entity]
    (e : AdvancedSessionExtentionBase Clazz Entity Conv Cmd Ref) (commands : List Cmd) :
    AdvancedSessionExtentionBase Clazz Entity Conv Cmd Ref :=
  { e with session := e.session.DeferMany commands }

/-! ### A concrete setting for worked examples -/

/-- In the worked examples on numbers every entity can be hashed. -/
instance : GoHashable Nat where
  hashable := fun _ => true

/-- Collaborators of the worked examples: every type has default value 0, the converter hands
out the entities 1, 2, 3, ... in call order, the two JSON readers return the string bound to
the key. -/
def exampleExternals : Externals Unit Nat Nat where
  Defaults_defaultValue := fun _ => 0
  convertToEntity := fun _ _ _ n => (n + 1, n + 1)
  jsonGetAsText := fun fields key =>
    match mapGet fields key with
    | some (.string s) => s
    | _ => ""
  jsonGetAsTextPointer := fun fields key =>
    match mapGet fields key with
    | some (.string s) => some s
    | _ => none

/-- Collaborators of the worked examples on identity: as `exampleExternals`, with a converter
that returns the one entity 7 on every call. -/
def exampleExternalsOneEntity : Externals Unit Nat Nat :=
  { exampleExternals with convertToEntity := fun _ _ _ n => (7, n + 1) }

/-- An operation on an empty session, with the given requested change vectors and attached
result slots. -/
def exampleOperation (changeVectors : List String) (slots : List (Option ObjectNode)) :
    GetRevisionOperation Unit Nat Nat Unit :=
  { _session := { documentsByEntity := [], entityToJson := 0, deferredCommands := [],
                  convertCalls := [], keysHashable := fun _ h => nomatch h },
    _result := some { Results := slots },
    _command := { _id := "orders/1", _start := 0, _pageSize := 25, _metadataOnly := false,
                  _changeVectors := changeVectors } }

/-- Raw document of the spec: id orders/1, change vector A:1, one business field. -/
def exampleDocA : ObjectNode :=
  [("@metadata", .document [("@id", .string "orders/1"), ("@change-vector", .string "A:1")]),
   ("Name", .string "x")]

/-- A second raw document: id orders/2, change vector A:2. -/
def exampleDocB : ObjectNode :=
  [("Name", .string "y"),
   ("@metadata", .document [("@id", .string "orders/2"), ("@change-vector", .string "A:2")])]

/-- The raw document of id orders/1 as fetched again later: change vector A:2 and a changed
business field. -/
def exampleDocARefetched : ObjectNode :=
  [("@metadata", .document [("@id", .string "orders/1"), ("@change-vector", .string "A:2")]),
   ("Name", .string "x2")]

/-- Entities of the worked examples on hashing: a pointer to a record, or a slice. -/
inductive ExampleValue where
  | pointer (address : Nat)
  | slice (items : List Nat)
  deriving DecidableEq

/-- A pointer can be hashed, a slice cannot. -/
instance : GoHashable ExampleValue where
  hashable := fun v =>
    match v with
    | .pointer _ => true
    | .slice _ => false

/-- Collaborators of the worked examples on hashing: as `exampleExternals`, with a converter
that returns a slice on every call. -/
def exampleExternalsSlice : Externals Unit ExampleValue Nat where
  Defaults_defaultValue := fun _ => .pointer 0
  convertToEntity := fun _ _ _ n => (.slice [n], n + 1)
  jsonGetAsText := exampleExternals.jsonGetAsText
  jsonGetAsTextPointer := exampleExternals.jsonGetAsTextPointer

/-- An operation on an empty session whose entities are pointers or slices, with the given
requested change vectors and attached result slots. -/
def exampleSliceOperation (changeVectors : List String) (slots : List (Option ObjectNode)) :
    GetRevisionOperation Unit ExampleValue Nat Unit :=
  { _session := { documentsByEntity := [], entityToJson := 0, deferredCommands := [],
                  convertCalls := [], keysHashable := fun _ h => nomatch h },
    _result := some { Results := slots },
    _command := { _id := "orders/1", _start := 0, _pageSize := 25, _metadataOnly := false,
                  _changeVectors := changeVectors } }

/-- A raw document whose metadata key is bound to a string, not to a nested document. -/
def exampleDocBadMetadata : ObjectNode :=
  [("@metadata", .string "orders/3"), ("Name", .string "z")]

/-! ## Properties of lazy.go -/

section LazyProofs

variable {V E W : Type}

/-- An instance that stored an error returns it and is left as it was. -/
theorem Lazy.GetValue_of_err (s : LazyExec V E W) (e : E) (h : s.l.err = some e) :
    Lazy.GetValue s = (some e, s) := by
  simp [Lazy.GetValue, h]

/-- An instance whose value was created returns the stored error and is left as it was. -/
theorem Lazy.GetValue_of_created (s : LazyExec V E W) (h : s.l.valueCreated = true) :
    Lazy.GetValue s = (s.l.err, s) := by
  unfold Lazy.GetValue
  cases herr : s.l.err with
  | none => simp [h]
  | some e => simp

/-- The first call on a fresh instance without stored error runs the factory on the holder. -/
theorem Lazy.GetValue_fresh (result : V) (factory : V → W → Option E × W) (w : W) :
    Lazy.GetValue (LazyExec.start (newLazy result factory none) w) =
      ((factory result w).1,
        { l := { valueFactory := factory, valueCreated := true, Value := result,
                 err := (factory result w).1 },
          world := (factory result w).2,
          calls := [(result, (factory result w).1)] }) := by
  simp [Lazy.GetValue, LazyExec.start, newLazy]

/-- No operation changes an instance that stored an error or whose value was created. -/
theorem LazyOp.step_of_settled (op : LazyOp) (s : LazyExec V E W)
    (h : s.l.valueCreated = true ∨ s.l.err ≠ none) : op.step s = s := by
  cases op with
  | isValueCreated =>
    unfold LazyOp.step Lazy.IsValueCreated
    cases s.l.err <;> rfl
  | getValue =>
    unfold LazyOp.step
    rcases h with h | h
    · rw [Lazy.GetValue_of_created s h]
    · cases herr : s.l.err with
      | none => exact absurd herr h
      | some e => rw [Lazy.GetValue_of_err s e herr]

theorem LazyOp.run_cons (op : LazyOp) (ops : List LazyOp) (s : LazyExec V E W) :
    LazyOp.run (op :: ops) s = LazyOp.run ops (op.step s) := rfl

/-- No sequence of operations changes an instance that stored an error or whose value was
created. -/
theorem LazyOp.run_of_settled (ops : List LazyOp) (s : LazyExec V E W)
    (h : s.l.valueCreated = true ∨ s.l.err ≠ none) : LazyOp.run ops s = s := by
  induction ops with
  | nil => rfl
  | cons op ops ih => rw [LazyOp.run_cons, LazyOp.step_of_settled op s h, ih]

theorem afterGetValues_succ (n : Nat) (s : LazyExec V E W) :
    afterGetValues (n + 1) s = afterGetValues n (Lazy.GetValue s).2 := rfl

/-- After at least one `GetValue` a fresh instance without stored error is in the state the
first call left. -/
theorem afterGetValues_fresh (result : V) (factory : V → W → Option E × W) (w : W) (n : Nat) :
    afterGetValues (n + 1) (LazyExec.start (newLazy result factory none) w) =
      (Lazy.GetValue (LazyExec.start (newLazy result factory none) w)).2 := by
  rw [afterGetValues_succ]
  unfold afterGetValues
  apply LazyOp.run_of_settled
  left
  rw [Lazy.GetValue_fresh]

/-- A fresh instance without stored error is, after any serial sequence of operations, either
untouched or in the state its first `GetValue` left. -/
theorem LazyOp.run_fresh (result : V) (factory : V → W → Option E × W) (w : W)
    (ops : List LazyOp) :
    LazyOp.run ops (LazyExec.start (newLazy result factory none) w) =
        LazyExec.start (newLazy result factory none) w ∨
      LazyOp.run ops (LazyExec.start (newLazy result factory none) w) =
        (Lazy.GetValue (LazyExec.start (newLazy result factory none) w)).2 := by
  induction ops with
  | nil => left; rfl
  | cons op ops ih =>
    rw [LazyOp.run_cons]
    cases op with
    | isValueCreated =>
      have : LazyOp.isValueCreated.step (LazyExec.start (newLazy result factory none) w) =
          LazyExec.start (newLazy result factory none) w := by
        simp [LazyOp.step, Lazy.IsValueCreated, LazyExec.start, newLazy]
      rw [this]
      exact ih
    | getValue =>
      right
      show LazyOp.run ops (Lazy.GetValue _).2 = _
      apply LazyOp.run_of_settled
      left
      rw [Lazy.GetValue_fresh]

/-- Claim C1: on a Lazy built without up-front error, the first GetValue invokes the factory
(once, on the holder), n >= 1 serial GetValue calls leave exactly that one invocation in the
log, and a GetValue issued after k >= 1 calls adds no invocation. -/
theorem Lazy_GetValue_invokes_factory_once (result : V) (factory : V → W → Option E × W)
    (w : W) (n : Nat) (hn : 1 ≤ n) :
    (Lazy.GetValue (LazyExec.start (newLazy result factory none) w)).2.calls =
        [(result, (factory result w).1)] ∧
      (afterGetValues n (LazyExec.start (newLazy result factory none) w)).calls =
        [(result, (factory result w).1)] ∧
      (afterGetValues n (LazyExec.start (newLazy result factory none) w)).calls.length = 1 ∧
      ∀ k, 1 ≤ k →
        (Lazy.GetValue (afterGetValues k (LazyExec.start (newLazy result factory none) w))).2.calls
          = (afterGetValues k (LazyExec.start (newLazy result factory none) w)).calls := by
  have hfirst : (Lazy.GetValue (LazyExec.start (newLazy result factory none) w)).2.calls =
      [(result, (factory result w).1)] := by rw [Lazy.GetValue_fresh]
  have hafter : ∀ k, 1 ≤ k →
      afterGetValues k (LazyExec.start (newLazy result factory none) w) =
        (Lazy.GetValue (LazyExec.start (newLazy result factory none) w)).2 := by
    intro k hk
    obtain ⟨m, rfl⟩ : ∃ m, k = m + 1 := ⟨k - 1, by omega⟩
    exact afterGetValues_fresh result factory w m
  refine ⟨hfirst, ?_, ?_, ?_⟩
  · rw [hafter n hn, hfirst]
  · rw [hafter n hn, hfirst]; rfl
  · intro k hk
    rw [hafter k hk, Lazy.GetValue_of_created]
    rw [Lazy.GetValue_fresh]

/-- Instance of C1: three serial GetValue calls with a factory that fails on holder 0 leave one
logged invocation. -/
theorem Lazy_GetValue_invokes_factory_once_witness :
    1 ≤ 3 ∧
      (afterGetValues 3 (LazyExec.start (newLazy (0 : Nat)
        (fun v w => (if v = 0 then some "boom" else none, w + 1)) none) (7 : Nat))).calls =
        [(0, some "boom")] :=
  ⟨by decide,
    (Lazy_GetValue_invokes_factory_once (0 : Nat)
      (fun v w => (if v = 0 then some "boom" else none, w + 1)) (7 : Nat) 3 (by decide)).2.1⟩

/-- Claim C2: on a Lazy built without up-front error, the first GetValue returns what the
factory returned (an error or nil), every GetValue issued after k >= 1 calls returns the same,
and such a call leaves the instance, the world and the invocation log untouched: a failed
factory is not retried. -/
theorem Lazy_GetValue_returns_first_outcome (result : V) (factory : V → W → Option E × W)
    (w : W) (k : Nat) (hk : 1 ≤ k) :
    (Lazy.GetValue (LazyExec.start (newLazy result factory none) w)).1 = (factory result w).1 ∧
      (Lazy.GetValue (afterGetValues k (LazyExec.start (newLazy result factory none) w))).1 =
        (factory result w).1 ∧
      (Lazy.GetValue (afterGetValues k (LazyExec.start (newLazy result factory none) w))).2 =
        afterGetValues k (LazyExec.start (newLazy result factory none) w) ∧
      (afterGetValues k (LazyExec.start (newLazy result factory none) w)).calls =
        [(result, (factory result w).1)] := by
  obtain ⟨m, rfl⟩ : ∃ m, k = m + 1 := ⟨k - 1, by omega⟩
  rw [afterGetValues_fresh result factory w m]
  refine ⟨by rw [Lazy.GetValue_fresh], ?_, ?_, by rw [Lazy.GetValue_fresh]⟩
  · rw [Lazy.GetValue_of_created _ (by rw [Lazy.GetValue_fresh]), Lazy.GetValue_fresh]
  · rw [Lazy.GetValue_of_created _ (by rw [Lazy.GetValue_fresh])]

/-- Instance of C2: a factory that fails with "boom" on holder 0; the third GetValue returns
"boom" again. -/
theorem Lazy_GetValue_returns_first_outcome_witness :
    1 ≤ 2 ∧
      (Lazy.GetValue (afterGetValues 2 (LazyExec.start (newLazy (0 : Nat)
        (fun v w => (if v = 0 then some "boom" else none, w + 1)) none) (7 : Nat)))).1 =
        some "boom" :=
  ⟨by decide,
    (Lazy_GetValue_returns_first_outcome (0 : Nat)
      (fun v w => (if v = 0 then some "boom" else none, w + 1)) (7 : Nat) 2 (by decide)).2.1⟩

/-- Claim C3: on a Lazy built by newLazy with a non-nil err, after any serial sequence of
GetValue and IsValueCreated calls the instance is as constructed, GetValue returns exactly
that err and logs no factory invocation, and IsValueCreated returns false. -/
theorem Lazy_upfront_error_short_circuits (result : V) (factory : V → W → Option E × W)
    (e : E) (w : W) (ops : List LazyOp) :
    LazyOp.run ops (LazyExec.start (newLazy result factory (some e)) w) =
        LazyExec.start (newLazy result factory (some e)) w ∧
      (Lazy.GetValue (LazyOp.run ops (LazyExec.start (newLazy result factory (some e)) w))).1 =
        some e ∧
      (Lazy.GetValue (LazyOp.run ops (LazyExec.start (newLazy result factory (some e)) w))).2.calls
        = [] ∧
      (Lazy.IsValueCreated
        (LazyOp.run ops (LazyExec.start (newLazy result factory (some e)) w))).1 = false := by
  have hrun : LazyOp.run ops (LazyExec.start (newLazy result factory (some e)) w) =
      LazyExec.start (newLazy result factory (some e)) w :=
    LazyOp.run_of_settled ops _ (Or.inr (by simp [LazyExec.start, newLazy]))
  rw [hrun]
  refine ⟨rfl, ?_, ?_, ?_⟩ <;> simp [Lazy.GetValue, Lazy.IsValueCreated, LazyExec.start, newLazy]

/-- Claim C4: in every state reached from newLazy by a serial sequence of GetValue and
IsValueCreated calls, IsValueCreated returns true exactly when the log holds a factory
invocation that returned nil; it returns false while the log is empty, when construction
supplied an error, and when the log holds an invocation that returned an error. -/
theorem Lazy_IsValueCreated_iff_factory_succeeded (result : V)
    (factory : V → W → Option E × W) (err : Option E) (w : W) (ops : List LazyOp) :
    ((Lazy.IsValueCreated (LazyOp.run ops (LazyExec.start (newLazy result factory err) w))).1
        = true ↔
      ∃ v, (v, none) ∈ (LazyOp.run ops (LazyExec.start (newLazy result factory err) w)).calls) ∧
    ((LazyOp.run ops (LazyExec.start (newLazy result factory err) w)).calls = [] →
      (Lazy.IsValueCreated (LazyOp.run ops (LazyExec.start (newLazy result factory err) w))).1
        = false) ∧
    (err ≠ none →
      (Lazy.IsValueCreated (LazyOp.run ops (LazyExec.start (newLazy result factory err) w))).1
        = false) ∧
    (∀ v e, (v, some e) ∈ (LazyOp.run ops (LazyExec.start (newLazy result factory err) w)).calls →
      (Lazy.IsValueCreated (LazyOp.run ops (LazyExec.start (newLazy result factory err) w))).1
        = false) := by
  cases err with
  | some e0 =>
    have hrun : LazyOp.run ops (LazyExec.start (newLazy result factory (some e0)) w) =
        LazyExec.start (newLazy result factory (some e0)) w :=
      LazyOp.run_of_settled ops _ (Or.inr (by simp [LazyExec.start, newLazy]))
    rw [hrun]
    simp [Lazy.IsValueCreated, LazyExec.start, newLazy]
  | none =>
    rcases LazyOp.run_fresh result factory w ops with h | h
    · rw [h]
      simp [Lazy.IsValueCreated, LazyExec.start, newLazy]
    · rw [h, Lazy.GetValue_fresh]
      cases hr : (factory result w).1 with
      | none => simp [Lazy.IsValueCreated]
      | some e1 => simp [Lazy.IsValueCreated]

/-- Claim C6: the state only moves forward; if valueCreated is true before an operation
(GetValue or IsValueCreated) it is true after it, and so it is after any serial sequence of
operations. -/
theorem Lazy_valueCreated_stays_true (s : LazyExec V E W) (h : s.l.valueCreated = true) :
    (∀ op : LazyOp, (op.step s).l.valueCreated = true) ∧
      ∀ ops : List LazyOp, (LazyOp.run ops s).l.valueCreated = true := by
  constructor
  · intro op
    rw [LazyOp.step_of_settled op s (Or.inl h)]
    exact h
  · intro ops
    rw [LazyOp.run_of_settled ops s (Or.inl h)]
    exact h

/-- Instance of C6: an instance completed with a failure stays completed under GetValue. -/
theorem Lazy_valueCreated_stays_true_witness :
    (LazyOp.getValue.step
      ({ l := { valueFactory := fun (v : Nat) (w : Nat) => ((none : Option String), w + v),
                valueCreated := true, Value := 1, err := some "boom" },
         world := 0, calls := [(1, some "boom")] } : LazyExec Nat String Nat)).l.valueCreated
      = true :=
  (Lazy_valueCreated_stays_true
    ({ l := { valueFactory := fun (v : Nat) (w : Nat) => ((none : Option String), w + v),
              valueCreated := true, Value := 1, err := some "boom" },
       world := 0, calls := [(1, some "boom")] } : LazyExec Nat String Nat) rfl).1
    LazyOp.getValue

end LazyProofs

/-! ## Properties of get_revision_operation.go -/

section MapLemmas

variable {K V : Type} [DecidableEq K]

theorem mapGet_mapSet_self (m : List (K × V)) (k : K) (v : V) :
    mapGet (mapSet m k v) k = some v := by
  induction m with
  | nil => simp [mapSet, mapGet]
  | cons p rest ih =>
    obtain ⟨k', v'⟩ := p
    by_cases h : k' = k
    · simp [mapSet, mapGet, h]
    · simp [mapSet, mapGet, h, ih]

theorem mapGet_mapSet_other (m : List (K × V)) (k k' : K) (v : V) (h : k' ≠ k) :
    mapGet (mapSet m k v) k' = mapGet m k' := by
  induction m with
  | nil => simp [mapSet, mapGet, Ne.symm h]
  | cons p rest ih =>
    obtain ⟨k0, v0⟩ := p
    by_cases h0 : k0 = k
    · subst h0
      simp [mapSet, mapGet, Ne.symm h]
    · by_cases h1 : k0 = k'
      · subst h1
        simp [mapSet, mapGet, h0]
      · simp [mapSet, mapGet, h0, h1, ih]

theorem mapGet_mapSet_isSome (m : List (K × V)) (k k' : K) (v : V) :
    (mapGet (mapSet m k v) k').isSome = true ↔ k' = k ∨ (mapGet m k').isSome = true := by
  by_cases h : k' = k
  · subst h
    simp [mapGet_mapSet_self]
  · simp [mapGet_mapSet_other m k k' v h, h]

end MapLemmas

/-- A list whose tail from `i` on starts with `a` holds `a` at index `i`, and its tail from
`i + 1` on is the rest. -/
theorem drop_cons_inv {α : Type} (l : List α) (i : Nat) (a : α) (t : List α)
    (h : l.drop i = a :: t) : l[i]? = some a ∧ l.drop (i + 1) = t := by
  induction l generalizing i with
  | nil => simp at h
  | cons b l ih =>
    cases i with
    | zero =>
      simp only [List.drop_zero, List.cons.injEq] at h
      simp [h.1, h.2]
    | succ i =>
      simp only [List.drop_succ_cons] at h
      simpa using ih i h

section VocabularyProofs

variable {Clazz Entity Conv : Type}

/-- The id handed to the converter, spelled out from the metadata sub-document. -/
theorem documentId_eq (x : Externals Clazz Entity Conv) (doc : ObjectNode)
    (metadata : Option ObjectNode)
    (hmeta : mapGet doc Constants_Documents_Metadata_KEY = metadata.map JsonValue.document) :
    documentId x doc =
      (metadata.map fun fields => x.jsonGetAsText fields Constants_Documents_Metadata_ID).getD ""
    := by
  cases metadata with
  | none => simp only [Option.map] at hmeta; simp [documentId, hmeta]
  | some fields => simp only [Option.map] at hmeta; simp [documentId, hmeta]

theorem converterCallsFor_cons (x : Externals Clazz Entity Conv) (clazz : Clazz)
    (slot : Option ObjectNode) (slots : List (Option ObjectNode)) (rev : Option Entity)
    (revs : List (Option Entity)) :
    converterCallsFor x clazz (slot :: slots) (rev :: revs) =
      converterCallsFor x clazz [slot] [rev] ++ converterCallsFor x clazz slots revs := by
  cases slot <;> cases rev <;> simp [converterCallsFor]

/-- A position holding a document and an entity contributes its call to the log. -/
theorem mem_converterCallsFor (x : Externals Clazz Entity Conv) (clazz : Clazz) :
    ∀ (slots : List (Option ObjectNode)) (revs : List (Option Entity)) (j : Nat)
      (doc : ObjectNode) (e : Entity),
      slots[j]? = some (some doc) → revs[j]? = some (some e) →
      ({ clazz := clazz, id := documentId x doc, document := doc, entity := e } :
        ConvertCall Clazz Entity) ∈ converterCallsFor x clazz slots revs := by
  intro slots
  induction slots with
  | nil => intro revs j doc e hs; simp at hs
  | cons slot slots ih =>
    intro revs j doc e hs hr
    cases revs with
    | nil => simp at hr
    | cons rev revs =>
      rw [converterCallsFor_cons]
      cases j with
      | zero =>
        simp only [List.getElem?_cons_zero, Option.some.injEq] at hs hr
        subst hs; subst hr
        simp [converterCallsFor]
      | succ j =>
        simp only [List.getElem?_cons_succ] at hs hr
        exact List.mem_append_right _ (ih revs j doc e hs hr)

/-- A skipped position contributes no call. -/
theorem converterCallsFor_cons_none (x : Externals Clazz Entity Conv) (clazz : Clazz)
    (slot : Option ObjectNode) (slots : List (Option ObjectNode)) (revs : List (Option Entity)) :
    converterCallsFor x clazz (slot :: slots) (none :: revs) =
      converterCallsFor x clazz slots revs := by
  cases slot <;> simp [converterCallsFor]

end VocabularyProofs

section OperationProofs

variable {Clazz Entity Conv Cmd : Type} [DecidableEq Entity] [GoHashable Entity]

/-- Materializing a nil document returns the default value and leaves the operation as it
was. -/
theorem GetRevisionOperation.getRevision_nil (x : Externals Clazz Entity Conv)
    (o : GetRevisionOperation Clazz Entity Conv Cmd) (clazz : Clazz) :
    o.getRevision x clazz none = (.ok (x.Defaults_defaultValue clazz), o) := rfl

/-- A document passes `metadataIsObject` exactly when its metadata key is unbound or bound to
a nested document. -/
theorem metadataIsObject_iff (doc : ObjectNode) :
    metadataIsObject doc = true ↔
      ∃ metadata : Option ObjectNode,
        mapGet doc Constants_Documents_Metadata_KEY = metadata.map JsonValue.document := by
  unfold metadataIsObject
  constructor
  · intro h
    cases hget : mapGet doc Constants_Documents_Metadata_KEY with
    | none => exact ⟨none, rfl⟩
    | some v =>
      cases v with
      | document fields => exact ⟨some fields, rfl⟩
      | null => simp [hget] at h
      | bool b => simp [hget] at h
      | number n => simp [hget] at h
      | string s => simp [hget] at h
      | sequence xs => simp [hget] at h
  · rintro ⟨metadata, hm⟩
    cases metadata with
    | none => simp only [Option.map] at hm; simp [hm]
    | some fields => simp only [Option.map] at hm; simp [hm]

/-- On a document failing `metadataIsObject` the type assertion stops `getRevision`; nothing
was written. -/
theorem GetRevisionOperation.getRevision_bad_metadata (x : Externals Clazz Entity Conv)
    (o : GetRevisionOperation Clazz Entity Conv Cmd) (clazz : Clazz) (doc : ObjectNode)
    (h : metadataIsObject doc = false) :
    o.getRevision x clazz (some doc) = (.error .interfaceConversion, o) := by
  unfold metadataIsObject at h
  cases hget : mapGet doc Constants_Documents_Metadata_KEY with
  | none => simp [hget] at h
  | some v =>
    cases v with
    | document fields => simp [hget] at h
    | null => simp [GetRevisionOperation.getRevision, hget]
    | bool b => simp [GetRevisionOperation.getRevision, hget]
    | number n => simp [GetRevisionOperation.getRevision, hget]
    | string s => simp [GetRevisionOperation.getRevision, hget]
    | sequence xs => simp [GetRevisionOperation.getRevision, hget]

/-- The metadata sub-document, spelled out from the binding of the metadata key. -/
theorem documentMetadata_eq (doc : ObjectNode) (metadata : Option ObjectNode)
    (hmeta : mapGet doc Constants_Documents_Metadata_KEY = metadata.map JsonValue.document) :
    documentMetadata doc = metadata := by
  cases metadata with
  | none => simp only [Option.map] at hmeta; simp [documentMetadata, hmeta]
  | some fields => simp only [Option.map] at hmeta; simp [documentMetadata, hmeta]

/-- Materializing a document that passes the type assertion: the converter is called, then
the entity is stored if it can be hashed, and the assignment panics if it cannot. -/
theorem GetRevisionOperation.getRevision_unfold (x : Externals Clazz Entity Conv)
    (o : GetRevisionOperation Clazz Entity Conv Cmd) (clazz : Clazz) (doc : ObjectNode)
    (hok : metadataIsObject doc = true) :
    o.getRevision x clazz (some doc) =
      if h : GoHashable.hashable
          (x.convertToEntity clazz (documentId x doc) doc o._session.entityToJson).1 = true then
        (.ok (x.convertToEntity clazz (documentId x doc) doc o._session.entityToJson).1,
          { o with _session := ((o.sessionAfterConvert x clazz doc).assign
              (x.convertToEntity clazz (documentId x doc) doc o._session.entityToJson).1 h
              (documentInfoOf x doc
                (x.convertToEntity clazz (documentId x doc) doc o._session.entityToJson).1)) })
      else
        (.error .unhashableKey, { o with _session := o.sessionAfterConvert x clazz doc }) := by
  obtain ⟨metadata, hm⟩ := (metadataIsObject_iff doc).1 hok
  cases metadata with
  | none =>
    simp only [Option.map] at hm
    simp only [GetRevisionOperation.getRevision, GetRevisionOperation.sessionAfterConvert,
      documentInfoOf, documentId, documentMetadata, hm, NewDocumentInfo, DocumentInfo.setId,
      DocumentInfo.setChangeVector, DocumentInfo.setDocument, DocumentInfo.setMetadata,
      DocumentInfo.setEntity]
    rfl
  | some fields =>
    simp only [Option.map] at hm
    simp only [GetRevisionOperation.getRevision, GetRevisionOperation.sessionAfterConvert,
      documentInfoOf, documentId, documentMetadata, hm, NewDocumentInfo, DocumentInfo.setId,
      DocumentInfo.setChangeVector, DocumentInfo.setDocument, DocumentInfo.setMetadata,
      DocumentInfo.setEntity]
    rfl

/-- Materializing a document that passes the type assertion and is converted into an entity
that can be hashed. -/
theorem GetRevisionOperation.getRevision_doc (x : Externals Clazz Entity Conv)
    (o : GetRevisionOperation Clazz Entity Conv Cmd) (clazz : Clazz) (doc : ObjectNode)
    (hok : metadataIsObject doc = true)
    (hhash : GoHashable.hashable
      (x.convertToEntity clazz (documentId x doc) doc o._session.entityToJson).1 = true) :
    o.getRevision x clazz (some doc) =
      (.ok (x.convertToEntity clazz (documentId x doc) doc o._session.entityToJson).1,
        { o with _session := ((o.sessionAfterConvert x clazz doc).assign
            (x.convertToEntity clazz (documentId x doc) doc o._session.entityToJson).1 hhash
            (documentInfoOf x doc
              (x.convertToEntity clazz (documentId x doc) doc o._session.entityToJson).1)) }) := by
  rw [GetRevisionOperation.getRevision_unfold x o clazz doc hok, dif_pos hhash]

/-- Materializing a document that passes the type assertion and is converted into an entity
that cannot be hashed: the assignment to the identity map panics, after the converter call. -/
theorem GetRevisionOperation.getRevision_unhashable (x : Externals Clazz Entity Conv)
    (o : GetRevisionOperation Clazz Entity Conv Cmd) (clazz : Clazz) (doc : ObjectNode)
    (hok : metadataIsObject doc = true)
    (hhash : GoHashable.hashable
      (x.convertToEntity clazz (documentId x doc) doc o._session.entityToJson).1 = false) :
    o.getRevision x clazz (some doc) =
      (.error .unhashableKey, { o with _session := o.sessionAfterConvert x clazz doc }) := by
  rw [GetRevisionOperation.getRevision_unfold x o clazz doc hok, dif_neg (by simp [hhash])]

/-- No materialization writes the attached result or the command. -/
theorem GetRevisionOperation.getRevision_frame (x : Externals Clazz Entity Conv)
    (o : GetRevisionOperation Clazz Entity Conv Cmd) (clazz : Clazz)
    (document : Option ObjectNode) :
    (o.getRevision x clazz document).2._result = o._result ∧
      (o.getRevision x clazz document).2._command = o._command := by
  cases document with
  | none => exact ⟨rfl, rfl⟩
  | some doc =>
    cases hok : metadataIsObject doc with
    | false => rw [GetRevisionOperation.getRevision_bad_metadata x o clazz doc hok]; exact ⟨rfl, rfl⟩
    | true =>
      cases hhash : GoHashable.hashable
          (x.convertToEntity clazz (documentId x doc) doc o._session.entityToJson).1 with
      | false =>
        rw [GetRevisionOperation.getRevision_unhashable x o clazz doc hok hhash]
        exact ⟨rfl, rfl⟩
      | true =>
        rw [GetRevisionOperation.getRevision_doc x o clazz doc hok hhash]
        exact ⟨rfl, rfl⟩

/-- Claim C8: materializing a nil document never fails and writes nothing.  getRevision on a
nil document, getRevision2 with no result attached, and getRevision2 with a nil slot 0 each
return the default value of the target type together with the operation exactly as it was: in
particular documentsByEntity and the log of converter calls are the ones before the call. -/
theorem getRevision_nil_document_is_default (x : Externals Clazz Entity Conv)
    (o : GetRevisionOperation Clazz Entity Conv Cmd) (clazz : Clazz) :
    o.getRevision x clazz none = (.ok (x.Defaults_defaultValue clazz), o) ∧
      (o._result = none →
        o.getRevision2 x clazz = (.ok (x.Defaults_defaultValue clazz), o)) ∧
      (∀ r : JSONArrayResult, o._result = some r → r.getResults[0]? = some none →
        o.getRevision2 x clazz = (.ok (x.Defaults_defaultValue clazz), o)) ∧
      (o.getRevision x clazz none).2._session.documentsByEntity =
        o._session.documentsByEntity ∧
      (o.getRevision x clazz none).2._session.convertCalls = o._session.convertCalls := by
  refine ⟨rfl, ?_, ?_, rfl, rfl⟩
  · intro h
    simp [GetRevisionOperation.getRevision2, h]
  · intro r h h0
    simp [GetRevisionOperation.getRevision2, GetRevisionOperation.resultSlot, h, h0,
      GetRevisionOperation.getRevision]

/-- Instance of C8: getRevision2 on a result whose slot 0 is nil (a document follows it)
returns the default value 0 and leaves the operation untouched. -/
theorem getRevision_nil_document_is_default_witness :
    (exampleOperation [] [none, some exampleDocA]).getRevision2 exampleExternals () =
      (.ok 0, exampleOperation [] [none, some exampleDocA]) :=
  (getRevision_nil_document_is_default exampleExternals
    (exampleOperation [] [none, some exampleDocA]) ()).2.2.1 _ rfl rfl

/-- Claim C9 as stated fails, in two ways.  On a non-nil document whose metadata key is bound
to a string the type assertion stops getRevision: no entity is returned, the converter is not
called and nothing is stored.  On a well-formed document for which the converter returns a
slice, the converter is called and then the assignment to the identity map panics: no entity
is returned and nothing is stored. -/
theorem getRevision_bad_metadata_counterexample :
    (((exampleOperation [] []).getRevision exampleExternals ()
        (some exampleDocBadMetadata)).1 = .error .interfaceConversion ∧
      (¬ ∃ entity, ((exampleOperation [] []).getRevision exampleExternals ()
        (some exampleDocBadMetadata)).1 = .ok entity) ∧
      ((exampleOperation [] []).getRevision exampleExternals ()
        (some exampleDocBadMetadata)).2._session.convertCalls = [] ∧
      ((exampleOperation [] []).getRevision exampleExternals ()
        (some exampleDocBadMetadata)).2._session.documentsByEntity = []) ∧
    (((exampleSliceOperation [] []).getRevision exampleExternalsSlice ()
        (some exampleDocA)).1 = .error .unhashableKey ∧
      (¬ ∃ entity, ((exampleSliceOperation [] []).getRevision exampleExternalsSlice ()
        (some exampleDocA)).1 = .ok entity) ∧
      ((exampleSliceOperation [] []).getRevision exampleExternalsSlice ()
        (some exampleDocA)).2._session.convertCalls.length = 1 ∧
      ((exampleSliceOperation [] []).getRevision exampleExternalsSlice ()
        (some exampleDocA)).2._session.documentsByEntity = []) := by
  have h : ((exampleOperation [] []).getRevision exampleExternals ()
      (some exampleDocBadMetadata)).1 = .error .interfaceConversion := rfl
  have h' : ((exampleSliceOperation [] []).getRevision exampleExternalsSlice ()
      (some exampleDocA)).1 = .error .unhashableKey := rfl
  refine ⟨⟨h, ?_, rfl, rfl⟩, h', ?_, rfl, rfl⟩
  · rintro ⟨entity, he⟩
    rw [h] at he
    cases he
  · rintro ⟨entity, he⟩
    rw [h'] at he
    cases he

/-- Claim C9, amended: for every non-nil document whose metadata key is unbound
(metadata = none) or bound to a nested document (metadata = some fields), getRevision calls
the converter once with (target type, id, document), where id is the text under the id key of
the metadata (the empty string without metadata).  When the returned entity can be hashed, it
then stores under that entity a DocumentInfo with that id, the change vector read from the
metadata (nil without metadata), the document, the metadata and the entity, leaves the
entries under other entities untouched, and returns the entity.  When the returned entity
cannot be hashed, the assignment panics: nothing is returned and the identity map is as
before. -/
theorem getRevision_converts_and_registers (x : Externals Clazz Entity Conv)
    (o : GetRevisionOperation Clazz Entity Conv Cmd) (clazz : Clazz) (doc : ObjectNode)
    (metadata : Option ObjectNode)
    (hmeta : mapGet doc Constants_Documents_Metadata_KEY = metadata.map JsonValue.document) :
    ∃ (id : String) (entity : Entity),
      id = (metadata.map fun fields =>
              x.jsonGetAsText fields Constants_Documents_Metadata_ID).getD "" ∧
      entity = (x.convertToEntity clazz id doc o._session.entityToJson).1 ∧
      (o.getRevision x clazz (some doc)).2._session.convertCalls =
        o._session.convertCalls ++
          [{ clazz := clazz, id := id, document := doc, entity := entity }] ∧
      (o.getRevision x clazz (some doc)).2._session.entityToJson =
        (x.convertToEntity clazz id doc o._session.entityToJson).2 ∧
      (GoHashable.hashable entity = true →
        (o.getRevision x clazz (some doc)).1 = .ok entity ∧
        mapGet (o.getRevision x clazz (some doc)).2._session.documentsByEntity entity =
          some { id := id,
                 changeVector := metadata.bind fun fields =>
                   x.jsonGetAsTextPointer fields Constants_Documents_Metadata_CHANGE_VECTOR,
                 document := some doc,
                 metadata := metadata,
                 entity := some entity } ∧
        ∀ other, other ≠ entity →
          mapGet (o.getRevision x clazz (some doc)).2._session.documentsByEntity other =
            mapGet o._session.documentsByEntity other) ∧
      (GoHashable.hashable entity = false →
        (o.getRevision x clazz (some doc)).1 = .error .unhashableKey ∧
        (o.getRevision x clazz (some doc)).2._session.documentsByEntity =
          o._session.documentsByEntity) := by
  have hok : metadataIsObject doc = true := (metadataIsObject_iff doc).2 ⟨metadata, hmeta⟩
  have hdm : documentMetadata doc = metadata := documentMetadata_eq doc metadata hmeta
  refine ⟨documentId x doc, _, documentId_eq x doc metadata hmeta, rfl, ?_⟩
  cases hhash : GoHashable.hashable
      (x.convertToEntity clazz (documentId x doc) doc o._session.entityToJson).1 with
  | false =>
    rw [GetRevisionOperation.getRevision_unhashable x o clazz doc hok hhash]
    refine ⟨rfl, rfl, ?_, ?_⟩
    · intro hcontra; cases hcontra
    · intro _; exact ⟨rfl, rfl⟩
  | true =>
    rw [GetRevisionOperation.getRevision_doc x o clazz doc hok hhash]
    refine ⟨rfl, rfl, ?_, ?_⟩
    · intro _
      refine ⟨rfl, ?_, ?_⟩
      · show mapGet (mapSet _ _ _) _ = _
        rw [mapGet_mapSet_self, ← hdm]
        rfl
      · intro other hne
        exact mapGet_mapSet_other _ _ _ _ hne
    · intro hcontra; cases hcontra

/-- Instance of C9 (amended): the raw document of the spec, with id orders/1 and change vector
A:1, is converted into entity 1, which can be hashed, and tracked under it. -/
theorem getRevision_converts_and_registers_witness :
    mapGet exampleDocA Constants_Documents_Metadata_KEY =
        (some [("@id", JsonValue.string "orders/1"),
               ("@change-vector", JsonValue.string "A:1")]).map JsonValue.document ∧
      ∃ (id : String) (entity : Nat),
        id = "orders/1" ∧ entity = 1 ∧
        ((exampleOperation [] []).getRevision exampleExternals () (some exampleDocA)).1 =
          .ok entity ∧
        ((mapGet ((exampleOperation [] []).getRevision exampleExternals ()
            (some exampleDocA)).2._session.documentsByEntity entity).map
              fun info => (info.id, info.changeVector)) = some ("orders/1", some "A:1") := by
  refine ⟨rfl, ?_⟩
  obtain ⟨id, entity, hid, hent, -, -, hstore, -⟩ :=
    getRevision_converts_and_registers exampleExternals (exampleOperation [] []) ()
      exampleDocA
      (some [("@id", JsonValue.string "orders/1"), ("@change-vector", JsonValue.string "A:1")])
      rfl
  obtain ⟨hret, hinfo, -⟩ := hstore rfl
  refine ⟨id, entity, ?_, ?_, hret, ?_⟩
  · rw [hid]; rfl
  · rw [hent, hid]; rfl
  · rw [hinfo, hid]; rfl

/-- One materialization of a slot that is nil, or that passes `metadataIsObject` and is
converted into an entity that can be hashed. -/
theorem GetRevisionOperation.getRevision_slot (x : Externals Clazz Entity Conv)
    (o : GetRevisionOperation Clazz Entity Conv Cmd) (clazz : Clazz) (slot : Option ObjectNode)
    (h : ∀ d, slot = some d → metadataIsObject d = true ∧
      GoHashable.hashable
        (x.convertToEntity clazz (documentId x d) d o._session.entityToJson).1 = true) :
    ∃ e o', o.getRevision x clazz slot = (.ok e, o') ∧ o'._result = o._result ∧
      o'._command = o._command ∧
      o'._session.convertCalls =
        o._session.convertCalls ++ converterCallsFor x clazz [slot] [some e] ∧
      (slot = none → e = x.Defaults_defaultValue clazz) ∧
      (∀ doc, slot = some doc →
        e = (x.convertToEntity clazz (documentId x doc) doc o._session.entityToJson).1) := by
  cases slot with
  | none =>
    refine ⟨_, o, rfl, rfl, rfl, by simp [converterCallsFor], fun _ => rfl, ?_⟩
    intro doc hdoc; cases hdoc
  | some doc =>
    obtain ⟨hok, hhash⟩ := h doc rfl
    refine ⟨_, _, GetRevisionOperation.getRevision_doc x o clazz doc hok hhash, rfl, rfl, ?_,
      ?_, ?_⟩
    · rfl
    · intro hnone; cases hnone
    · intro doc' hdoc
      cases hdoc
      rfl

/-- What the loop of getRevisionsFor does from index `i` on.  `ss` are the result slots from
position `i` on, each nil or a document that passes `metadataIsObject` and that the converter
turns into an entity that can be hashed. -/
theorem GetRevisionOperation.getRevisionsForLoop_spec (x : Externals Clazz Entity Conv)
    (clazz : Clazz) (r : JSONArrayResult) (ss : List (Option ObjectNode)) :
    ∀ (i : Nat) (acc : List Entity) (o : GetRevisionOperation Clazz Entity Conv Cmd),
      o._result = some r → r.getResults.drop i = ss →
      (∀ d, some d ∈ ss → metadataIsObject d = true ∧
        ∀ c : Conv, GoHashable.hashable
          (x.convertToEntity clazz (documentId x d) d c).1 = true) →
      ∃ (revs : List Entity) (o' : GetRevisionOperation Clazz Entity Conv Cmd),
        GetRevisionOperation.getRevisionsForLoop x clazz ss.length i acc o =
          (.ok (acc ++ revs), o') ∧
        revs.length = ss.length ∧
        (∀ j : Nat, ss[j]? = some none → revs[j]? = some (x.Defaults_defaultValue clazz)) ∧
        (∀ (j : Nat) (doc : ObjectNode), ss[j]? = some (some doc) →
          ∃ c, revs[j]? = some (x.convertToEntity clazz (documentId x doc) doc c).1) ∧
        o'._session.convertCalls = o._session.convertCalls ++
          converterCallsFor x clazz ss (revs.map some) := by
  induction ss with
  | nil =>
    intro i acc o _ _ _
    refine ⟨[], o, by simp [GetRevisionOperation.getRevisionsForLoop], rfl, ?_, ?_, ?_⟩
    · intro j hj; simp at hj
    · intro j doc hj; simp at hj
    · simp [converterCallsFor]
  | cons slot ss ih =>
    intro i acc o hres hds hok
    obtain ⟨hsi, hds'⟩ := drop_cons_inv r.getResults i slot ss hds
    have hslot : o.resultSlot i = .ok slot := by
      simp [GetRevisionOperation.resultSlot, hres, hsi]
    obtain ⟨e, o1, hrev, hres1, -, hcalls1, hnil1, hconv1⟩ :=
      GetRevisionOperation.getRevision_slot x o clazz slot
        (fun d hd =>
          ⟨(hok d (by rw [hd]; exact List.mem_cons_self _ _)).1,
            (hok d (by rw [hd]; exact List.mem_cons_self _ _)).2 _⟩)
    obtain ⟨revs, o', hloop, hlen', hnil, hconv, hcalls⟩ :=
      ih (i + 1) (acc ++ [e]) o1 (hres1.trans hres) hds'
        (fun d hd => hok d (List.mem_cons_of_mem _ hd))
    refine ⟨e :: revs, o', ?_, by simp [hlen'], ?_, ?_, ?_⟩
    · simp only [List.length_cons, GetRevisionOperation.getRevisionsForLoop, hslot, hrev, hloop]
      simp
    · intro j hj
      cases j with
      | zero =>
        simp only [List.getElem?_cons_zero, Option.some.injEq] at hj
        simp [hnil1 hj]
      | succ j =>
        simp only [List.getElem?_cons_succ] at hj
        simpa using hnil j hj
    · intro j doc hj
      cases j with
      | zero =>
        simp only [List.getElem?_cons_zero, Option.some.injEq] at hj
        exact ⟨o._session.entityToJson, by simp [hconv1 doc hj]⟩
      | succ j =>
        simp only [List.getElem?_cons_succ] at hj
        obtain ⟨c, hc⟩ := hconv j doc hj
        exact ⟨c, by simpa using hc⟩
    · rw [hcalls, hcalls1, List.map_cons, List.append_assoc,
        ← converterCallsFor_cons x clazz slot _ (some e)]

/-- Claim C7 as stated fails, in two ways.  With a document whose metadata key is bound to a
string among the attached slots, getRevisionsFor is stopped by the type assertion; with a
converter that returns a slice, it is stopped by the assignment to the identity map at the
first non-nil slot.  Either way no sequence is returned. -/
theorem getRevisionsFor_bad_metadata_counterexample :
    (((exampleOperation [] [some exampleDocA, some exampleDocBadMetadata]).getRevisionsFor
        exampleExternals ()).1 = .error .interfaceConversion ∧
      ¬ ∃ out, ((exampleOperation [] [some exampleDocA, some exampleDocBadMetadata]).getRevisionsFor
        exampleExternals ()).1 = .ok out) ∧
    (((exampleSliceOperation [] [none, some exampleDocA]).getRevisionsFor
        exampleExternalsSlice ()).1 = .error .unhashableKey ∧
      ¬ ∃ out, ((exampleSliceOperation [] [none, some exampleDocA]).getRevisionsFor
        exampleExternalsSlice ()).1 = .ok out) := by
  have h : ((exampleOperation [] [some exampleDocA, some exampleDocBadMetadata]).getRevisionsFor
      exampleExternals ()).1 = .error .interfaceConversion := rfl
  have h' : ((exampleSliceOperation [] [none, some exampleDocA]).getRevisionsFor
      exampleExternalsSlice ()).1 = .error .unhashableKey := rfl
  refine ⟨⟨h, ?_⟩, h', ?_⟩
  · rintro ⟨out, he⟩
    rw [h] at he
    cases he
  · rintro ⟨out, he⟩
    rw [h'] at he
    cases he

/-- Claim C7, amended: for every attached result sequence whose non-nil documents have their
metadata key unbound or bound to a nested document and are turned by the converter into
entities that can be hashed, getRevisionsFor returns a sequence of the same length; element i
is the default value of the type when slot i is nil, and otherwise the entity the converter
returned on (type, id, document) for the document of slot i, a call found in the log; the
calls added to the log are, in response order, exactly one per non-nil slot. -/
theorem getRevisionsFor_materializes_every_slot (x : Externals Clazz Entity Conv)
    (o : GetRevisionOperation Clazz Entity Conv Cmd) (clazz : Clazz) (r : JSONArrayResult)
    (hres : o._result = some r)
    (hmeta : ∀ d, some d ∈ r.getResults → metadataIsObject d = true)
    (hhash : ∀ d, some d ∈ r.getResults → ∀ c : Conv,
      GoHashable.hashable (x.convertToEntity clazz (documentId x d) d c).1 = true) :
    ∃ (out : List Entity) (o' : GetRevisionOperation Clazz Entity Conv Cmd)
      (newCalls : List (ConvertCall Clazz Entity)),
      o.getRevisionsFor x clazz = (.ok out, o') ∧
      out.length = r.getResults.length ∧
      (∀ i : Nat, r.getResults[i]? = some none →
        out[i]? = some (x.Defaults_defaultValue clazz)) ∧
      (∀ (i : Nat) (doc : ObjectNode), r.getResults[i]? = some (some doc) →
        ∃ e c, out[i]? = some e ∧
          e = (x.convertToEntity clazz (documentId x doc) doc c).1 ∧
          ({ clazz := clazz, id := documentId x doc, document := doc, entity := e } :
            ConvertCall Clazz Entity) ∈ newCalls) ∧
      newCalls = converterCallsFor x clazz r.getResults (out.map some) ∧
      o'._session.convertCalls = o._session.convertCalls ++ newCalls := by
  obtain ⟨revs, o', hloop, hlen, hnil, hconv, hcalls⟩ :=
    GetRevisionOperation.getRevisionsForLoop_spec x clazz r r.getResults 0 [] o hres rfl
      (fun d hd => ⟨hmeta d hd, hhash d hd⟩)
  simp only [List.nil_append] at hloop
  refine ⟨revs, o', _, ?_, hlen, hnil, ?_, rfl, hcalls⟩
  · simp [GetRevisionOperation.getRevisionsFor, hres, hloop]
  · intro i doc hdoc
    obtain ⟨c, hc⟩ := hconv i doc hdoc
    refine ⟨_, c, hc, rfl, ?_⟩
    apply mem_converterCallsFor x clazz r.getResults (revs.map some) i doc _ hdoc
    simp [hc]

/-- Instance of C7 (amended), the example of the spec: the slots [doc, null, doc2] yield
[entity1, zeroValue, entity2], here [1, 0, 2]. -/
theorem getRevisionsFor_materializes_every_slot_witness :
    ((exampleOperation [] [some exampleDocA, none, some exampleDocB]).getRevisionsFor
        exampleExternals ()).1 = .ok [1, 0, 2] ∧
      ∃ (out : List Nat) (o' : GetRevisionOperation Unit Nat Nat Unit),
        (exampleOperation [] [some exampleDocA, none, some exampleDocB]).getRevisionsFor
          exampleExternals () = (.ok out, o') ∧
        out.length = 3 ∧ out[1]? = some 0 := by
  refine ⟨rfl, ?_⟩
  obtain ⟨out, o', -, hrun, hlen, hnil, -, -, -⟩ :=
    getRevisionsFor_materializes_every_slot exampleExternals
      (exampleOperation [] [some exampleDocA, none, some exampleDocB]) ()
      { Results := [some exampleDocA, none, some exampleDocB] } rfl
      (by
        intro d hd
        simp only [JSONArrayResult.getResults, List.mem_cons, Option.some.injEq,
          List.mem_singleton, List.not_mem_nil, or_false] at hd
        rcases hd with rfl | hd | rfl
        · rfl
        · cases hd
        · rfl)
      (fun _ _ _ => rfl)
  exact ⟨out, o', hrun, hlen, hnil 1 rfl⟩

/-- What the loop of getRevisions does from index `i` on.  `cs` are the requested change
vectors and `ss` the result slots from position `i` on, equally many, and the documents at the
positions with a non-empty change vector pass `metadataIsObject` and are turned by the
converter into entities that can be hashed.  `revs` lists, per position, the entity
materialized there (`none` for a skipped position). -/
theorem GetRevisionOperation.getRevisionsLoop_spec (x : Externals Clazz Entity Conv)
    (clazz : Clazz) (r : JSONArrayResult) (cvs : List String) (cs : List String) :
    ∀ (ss : List (Option ObjectNode)) (i : Nat) (acc : List (String × Entity))
      (o : GetRevisionOperation Clazz Entity Conv Cmd),
      o._result = some r → o._command.getChangeVectors = cvs →
      cvs.drop i = cs → r.getResults.drop i = ss → cs.length = ss.length →
      (∀ (j : Nat) (cv : String) (doc : ObjectNode), cs[j]? = some cv → cv ≠ "" →
        ss[j]? = some (some doc) → metadataIsObject doc = true ∧
          ∀ c : Conv, GoHashable.hashable
            (x.convertToEntity clazz (documentId x doc) doc c).1 = true) →
      ∃ (revs : List (Option Entity)) (m : List (String × Entity))
        (o' : GetRevisionOperation Clazz Entity Conv Cmd),
        GetRevisionOperation.getRevisionsLoop x clazz cs.length i acc o = (.ok m, o') ∧
        revs.length = cs.length ∧
        (∀ j : Nat, cs[j]? = some "" → revs[j]? = some none) ∧
        (∀ (j : Nat) (cv : String), cs[j]? = some cv → cv ≠ "" →
          ∃ e, revs[j]? = some (some e) ∧
            (ss[j]? = some none → e = x.Defaults_defaultValue clazz) ∧
            (∀ doc, ss[j]? = some (some doc) →
              ∃ c, e = (x.convertToEntity clazz (documentId x doc) doc c).1) ∧
            ((∀ j' : Nat, j < j' → cs[j']? ≠ some cv) → mapGet m cv = some e)) ∧
        (∀ k, k ∉ cs → mapGet m k = mapGet acc k) ∧
        (∀ k, (mapGet m k).isSome = true ↔
          ((mapGet acc k).isSome = true ∨ (k ≠ "" ∧ k ∈ cs))) ∧
        o'._session.convertCalls = o._session.convertCalls ++
          converterCallsFor x clazz ss revs := by
  induction cs with
  | nil =>
    intro ss i acc o _ _ _ _ hlen _
    refine ⟨[], acc, o, by simp [GetRevisionOperation.getRevisionsLoop], rfl, ?_, ?_, ?_, ?_, ?_⟩
    · intro j hj; simp at hj
    · intro j cv hj; simp at hj
    · intro k _; rfl
    · intro k; simp
    · cases ss <;> simp [converterCallsFor]
  | cons c cs ih =>
    intro ss i acc o hres hcmd hdc hds hlen hok
    cases ss with
    | nil => simp at hlen
    | cons slot ss =>
    obtain ⟨hci, hdc'⟩ := drop_cons_inv cvs i c cs hdc
    obtain ⟨hsi, hds'⟩ := drop_cons_inv r.getResults i slot ss hds
    have hcv : o._command.getChangeVectors[i]? = some c := by rw [hcmd]; exact hci
    have hlen' : cs.length = ss.length := by simpa using hlen
    have hok' : ∀ (j : Nat) (cv : String) (doc : ObjectNode), cs[j]? = some cv → cv ≠ "" →
        ss[j]? = some (some doc) → metadataIsObject doc = true ∧
          ∀ c : Conv, GoHashable.hashable
            (x.convertToEntity clazz (documentId x doc) doc c).1 = true := by
      intro j cv doc h1 h2 h3
      exact hok (j + 1) cv doc (by simpa using h1) h2 (by simpa using h3)
    by_cases hempty : c = ""
    · -- the position is skipped
      obtain ⟨revs, m, o', hloop, hrl, hskip, hkey, hframe, hkeys, hcalls⟩ :=
        ih ss (i + 1) acc o hres hcmd hdc' hds' hlen' hok'
      refine ⟨none :: revs, m, o', ?_, by simp [hrl], ?_, ?_, ?_, ?_, ?_⟩
      · simp only [List.length_cons, GetRevisionOperation.getRevisionsLoop, hcv, hempty, if_true,
          hloop]
      · intro j hj
        cases j with
        | zero => simp
        | succ j => simpa using hskip j (by simpa using hj)
      · intro j cv hj hne
        cases j with
        | zero =>
          simp only [List.getElem?_cons_zero, Option.some.injEq] at hj
          exact absurd (hj ▸ hempty) hne
        | succ j =>
          simp only [List.getElem?_cons_succ] at hj
          obtain ⟨e, he, hdef, hconv, hlast⟩ := hkey j cv hj hne
          refine ⟨e, by simpa using he, ?_, ?_, ?_⟩
          · intro hs
            exact hdef (by simpa using hs)
          · intro doc hs
            exact hconv doc (by simpa using hs)
          · intro hno
            apply hlast
            intro j' hj' hcontra
            exact hno (j' + 1) (by omega) (by simpa using hcontra)
      · intro k hk
        apply hframe
        intro hmem
        exact hk (List.mem_cons_of_mem _ hmem)
      · intro k
        rw [hkeys k, hempty]
        constructor
        · rintro (h | ⟨h1, h2⟩)
          · exact Or.inl h
          · exact Or.inr ⟨h1, List.mem_cons_of_mem _ h2⟩
        · rintro (h | ⟨h1, h2⟩)
          · exact Or.inl h
          · rcases List.mem_cons.1 h2 with h3 | h3
            · exact absurd h3 h1
            · exact Or.inr ⟨h1, h3⟩
      · rw [hcalls, converterCallsFor_cons_none]
    · -- the position is materialized
      have hslot : o.resultSlot i = .ok slot := by
        simp [GetRevisionOperation.resultSlot, hres, hsi]
      obtain ⟨e, o1, hrev, hres1, hcmd1, hcalls1, hnil1, hconv1⟩ :=
        GetRevisionOperation.getRevision_slot x o clazz slot
          (fun d hd =>
            ⟨(hok 0 c d (by simp) hempty (by simp [hd])).1,
              (hok 0 c d (by simp) hempty (by simp [hd])).2 _⟩)
      obtain ⟨revs, m, o', hloop, hrl, hskip, hkey, hframe, hkeys, hcalls⟩ :=
        ih ss (i + 1) (mapSet acc c e) o1 (hres1.trans hres) (by rw [hcmd1]; exact hcmd)
          hdc' hds' hlen' hok'
      refine ⟨some e :: revs, m, o', ?_, by simp [hrl], ?_, ?_, ?_, ?_, ?_⟩
      · simp only [List.length_cons, GetRevisionOperation.getRevisionsLoop, hcv, hempty,
          if_false, hslot, hrev, hloop]
      · intro j hj
        cases j with
        | zero =>
          simp only [List.getElem?_cons_zero, Option.some.injEq] at hj
          exact absurd hj hempty
        | succ j => simpa using hskip j (by simpa using hj)
      · intro j cv hj hne
        cases j with
        | zero =>
          simp only [List.getElem?_cons_zero, Option.some.injEq] at hj
          subst hj
          refine ⟨e, by simp, ?_, ?_, ?_⟩
          · intro hs
            exact hnil1 (by simpa using hs)
          · intro doc hs
            exact ⟨o._session.entityToJson, hconv1 doc (by simpa using hs)⟩
          · intro hno
            have hnot : c ∉ cs := by
              intro hmem
              obtain ⟨j', hj'⟩ := List.mem_iff_getElem?.1 hmem
              exact hno (j' + 1) (by omega) (by simpa using hj')
            rw [hframe _ hnot]
            exact mapGet_mapSet_self _ _ _
        | succ j =>
          simp only [List.getElem?_cons_succ] at hj
          obtain ⟨e', he, hdef, hconv, hlast⟩ := hkey j cv hj hne
          refine ⟨e', by simpa using he, ?_, ?_, ?_⟩
          · intro hs
            exact hdef (by simpa using hs)
          · intro doc hs
            exact hconv doc (by simpa using hs)
          · intro hno
            apply hlast
            intro j' hj' hcontra
            exact hno (j' + 1) (by omega) (by simpa using hcontra)
      · intro k hk
        have hne : k ≠ c := fun h => hk (h ▸ List.mem_cons_self _ _)
        rw [hframe k (fun hmem => hk (List.mem_cons_of_mem _ hmem))]
        exact mapGet_mapSet_other _ _ _ _ hne
      · intro k
        rw [hkeys k, mapGet_mapSet_isSome]
        constructor
        · rintro ((h | h) | ⟨h1, h2⟩)
          · exact Or.inr ⟨h ▸ hempty, h ▸ List.mem_cons_self _ _⟩
          · exact Or.inl h
          · exact Or.inr ⟨h1, List.mem_cons_of_mem _ h2⟩
        · rintro (h | ⟨h1, h2⟩)
          · exact Or.inl (Or.inr h)
          · rcases List.mem_cons.1 h2 with h3 | h3
            · exact Or.inl (Or.inl h3)
            · exact Or.inr ⟨h1, h3⟩
      · rw [hcalls, hcalls1, List.append_assoc,
          ← converterCallsFor_cons x clazz slot _ (some e)]

/-- Claim C10 as stated fails, in two ways.  For the requested list ["cv-1"] and the aligned
one-slot result holding a document whose metadata key is bound to a string, getRevisions is
stopped by the type assertion; for the same request, a well-formed document and a converter
that returns a slice, it is stopped by the assignment to the identity map.  Either way no map
is returned. -/
theorem getRevisions_bad_metadata_counterexample :
    (((exampleOperation ["cv-1"] [some exampleDocBadMetadata]).getRevisions
        exampleExternals ()).1 = .error .interfaceConversion ∧
      ¬ ∃ m, ((exampleOperation ["cv-1"] [some exampleDocBadMetadata]).getRevisions
        exampleExternals ()).1 = .ok m) ∧
    (((exampleSliceOperation ["cv-1"] [some exampleDocA]).getRevisions
        exampleExternalsSlice ()).1 = .error .unhashableKey ∧
      ¬ ∃ m, ((exampleSliceOperation ["cv-1"] [some exampleDocA]).getRevisions
        exampleExternalsSlice ()).1 = .ok m) := by
  have h : ((exampleOperation ["cv-1"] [some exampleDocBadMetadata]).getRevisions
      exampleExternals ()).1 = .error .interfaceConversion := rfl
  have h' : ((exampleSliceOperation ["cv-1"] [some exampleDocA]).getRevisions
      exampleExternalsSlice ()).1 = .error .unhashableKey := rfl
  refine ⟨⟨h, ?_⟩, h', ?_⟩
  · rintro ⟨m, he⟩
    rw [h] at he
    cases he
  · rintro ⟨m, he⟩
    rw [h'] at he
    cases he

/-- Claim C10, amended: for every requested change-vector list and result sequence of the same
length in which the documents at positions with a non-empty change vector have their metadata
key unbound or bound to a nested document and are turned by the converter into entities that
can be hashed, getRevisions returns a map m whose key set is exactly the set of non-empty
requested change vectors.  With revs the entities materialized per position: a position with
the empty change vector is skipped (revs holds none there, and it contributes no converter
call); a position i with a non-empty change vector cv is materialized into an entity e, which
is the default value when slot i is nil and otherwise the entity the converter returned on
(type, id, document) for the document of slot i, a call found in the log; and m maps cv to e
when cv is not requested again at a later position. -/
theorem getRevisions_keyed_by_change_vector (x : Externals Clazz Entity Conv)
    (o : GetRevisionOperation Clazz Entity Conv Cmd) (clazz : Clazz) (r : JSONArrayResult)
    (hres : o._result = some r)
    (hlen : o._command.getChangeVectors.length = r.getResults.length)
    (hmeta : ∀ (i : Nat) (cv : String) (doc : ObjectNode),
      o._command.getChangeVectors[i]? = some cv → cv ≠ "" →
      r.getResults[i]? = some (some doc) → metadataIsObject doc = true)
    (hhash : ∀ (i : Nat) (cv : String) (doc : ObjectNode),
      o._command.getChangeVectors[i]? = some cv → cv ≠ "" →
      r.getResults[i]? = some (some doc) → ∀ c : Conv,
        GoHashable.hashable (x.convertToEntity clazz (documentId x doc) doc c).1 = true) :
    ∃ (m : List (String × Entity)) (revs : List (Option Entity))
      (o' : GetRevisionOperation Clazz Entity Conv Cmd)
      (newCalls : List (ConvertCall Clazz Entity)),
      o.getRevisions x clazz = (.ok m, o') ∧
      revs.length = o._command.getChangeVectors.length ∧
      (∀ k : String, (mapGet m k).isSome = true ↔
        (k ≠ "" ∧ k ∈ o._command.getChangeVectors)) ∧
      (∀ i : Nat, o._command.getChangeVectors[i]? = some "" → revs[i]? = some none) ∧
      (∀ (i : Nat) (cv : String), o._command.getChangeVectors[i]? = some cv → cv ≠ "" →
        ∃ e, revs[i]? = some (some e) ∧
          (r.getResults[i]? = some none → e = x.Defaults_defaultValue clazz) ∧
          (∀ doc, r.getResults[i]? = some (some doc) →
            (∃ c, e = (x.convertToEntity clazz (documentId x doc) doc c).1) ∧
            ({ clazz := clazz, id := documentId x doc, document := doc, entity := e } :
              ConvertCall Clazz Entity) ∈ newCalls) ∧
          ((∀ i' : Nat, i < i' → o._command.getChangeVectors[i']? ≠ some cv) →
            mapGet m cv = some e)) ∧
      newCalls = converterCallsFor x clazz r.getResults revs ∧
      o'._session.convertCalls = o._session.convertCalls ++ newCalls := by
  obtain ⟨revs, m, o', hloop, hrl, hskip, hkey, -, hkeys, hcalls⟩ :=
    GetRevisionOperation.getRevisionsLoop_spec x clazz r o._command.getChangeVectors
      o._command.getChangeVectors r.getResults 0 [] o hres rfl rfl rfl hlen
      (fun i cv doc h1 h2 h3 => ⟨hmeta i cv doc h1 h2 h3, hhash i cv doc h1 h2 h3⟩)
  refine ⟨m, revs, o', _, hloop, hrl, ?_, hskip, ?_, rfl, hcalls⟩
  · intro k
    rw [hkeys k]
    simp [mapGet]
  · intro i cv hcv hne
    obtain ⟨e, he, hdef, hconv, hlast⟩ := hkey i cv hcv hne
    exact ⟨e, he, hdef,
      fun doc hdoc =>
        ⟨hconv doc hdoc, mem_converterCallsFor x clazz r.getResults revs i doc e hdoc he⟩,
      hlast⟩

/-- Instance of C10 (amended), the example of the spec: the request ["", "cv-1", "cv-2"] with
the slots [irrelevant, docA, null] gives exactly cv-1 -> entityA (here 1) and
cv-2 -> zeroValue (here 0); the irrelevant slot, a document with a string under its metadata
key, is not touched. -/
theorem getRevisions_keyed_by_change_vector_witness :
    ((exampleOperation ["", "cv-1", "cv-2"]
        [some exampleDocBadMetadata, some exampleDocA, none]).getRevisions
          exampleExternals ()).1 = .ok [("cv-1", 1), ("cv-2", 0)] ∧
      ∃ (m : List (String × Nat)) (o' : GetRevisionOperation Unit Nat Nat Unit),
        (exampleOperation ["", "cv-1", "cv-2"]
          [some exampleDocBadMetadata, some exampleDocA, none]).getRevisions
            exampleExternals () = (.ok m, o') ∧
        ∀ k : String, (mapGet m k).isSome = true ↔ (k ≠ "" ∧ k ∈ ["", "cv-1", "cv-2"]) := by
  refine ⟨rfl, ?_⟩
  obtain ⟨m, revs, o', -, hrun, -, hkeys, -, -, -, -⟩ :=
    getRevisions_keyed_by_change_vector exampleExternals
      (exampleOperation ["", "cv-1", "cv-2"]
        [some exampleDocBadMetadata, some exampleDocA, none]) ()
      { Results := [some exampleDocBadMetadata, some exampleDocA, none] } rfl rfl
      (by
        intro i cv doc hcv hne hdoc
        match i, hcv, hdoc with
        | 0, hcv, _ =>
          simp [exampleOperation, GetRevisionsCommand.getChangeVectors] at hcv
          exact absurd hcv.symm hne
        | 1, _, hdoc =>
          simp [JSONArrayResult.getResults] at hdoc
          subst hdoc
          rfl
        | 2, _, hdoc => simp [JSONArrayResult.getResults] at hdoc
        | n + 3, _, hdoc => simp [JSONArrayResult.getResults] at hdoc)
      (fun _ _ _ _ _ _ _ => rfl)
  exact ⟨m, o', hrun, hkeys⟩

end OperationProofs

section MetadataProofs

variable {Clazz Entity Conv Cmd : Type} [GoHashable Entity]

/-- The loop of getRevisionsMetadataFor never writes to the operation. -/
theorem GetRevisionOperation.getRevisionsMetadataForLoop_frame (remaining : Nat) :
    ∀ (i : Nat) (acc : List MetadataAsDictionary)
      (o : GetRevisionOperation Clazz Entity Conv Cmd),
      (GetRevisionOperation.getRevisionsMetadataForLoop remaining i acc o).2 = o := by
  induction remaining with
  | zero => intro i acc o; rfl
  | succ n ih =>
    intro i acc o
    unfold GetRevisionOperation.getRevisionsMetadataForLoop
    cases o.resultSlot i with
    | error p => rfl
    | ok document =>
      cases document with
      | none => exact ih _ _ o
      | some doc =>
        simp only
        cases hget : mapGet doc Constants_Documents_Metadata_KEY with
        | none => exact ih _ _ o
        | some v =>
          cases v with
          | document fields => exact ih _ _ o
          | null => rfl
          | bool b => rfl
          | number n => rfl
          | string t => rfl
          | sequence xs => rfl

/-- What the loop of getRevisionsMetadataFor does from index `i` on.  `ss` are the result slots
from position `i` on, each nil or passing `metadataIsObject`. -/
theorem GetRevisionOperation.getRevisionsMetadataForLoop_spec (r : JSONArrayResult)
    (ss : List (Option ObjectNode)) :
    ∀ (i : Nat) (acc : List MetadataAsDictionary)
      (o : GetRevisionOperation Clazz Entity Conv Cmd),
      o._result = some r → r.getResults.drop i = ss →
      (∀ d, some d ∈ ss → metadataIsObject d = true) →
      GetRevisionOperation.getRevisionsMetadataForLoop ss.length i acc o =
        (.ok (acc ++ ss.map fun slot =>
          NewMetadataAsDictionary (slot.bind documentMetadata) none ""), o) := by
  induction ss with
  | nil => intro i acc o _ _ _; simp [GetRevisionOperation.getRevisionsMetadataForLoop]
  | cons slot ss ih =>
    intro i acc o hres hds hok
    obtain ⟨hsi, hds'⟩ := drop_cons_inv r.getResults i slot ss hds
    have hslot : o.resultSlot i = .ok slot := by
      simp [GetRevisionOperation.resultSlot, hres, hsi]
    have hrest := ih (i + 1) (acc ++ [NewMetadataAsDictionary (slot.bind documentMetadata) none ""])
      o hres hds' (fun d hd => hok d (List.mem_cons_of_mem _ hd))
    cases slot with
    | none =>
      simp only [List.length_cons, GetRevisionOperation.getRevisionsMetadataForLoop, hslot]
      simpa using hrest
    | some doc =>
      obtain ⟨metadata, hm⟩ := (metadataIsObject_iff doc).1 (hok doc (List.mem_cons_self _ _))
      cases metadata with
      | none =>
        simp only [Option.map] at hm
        have hdm : documentMetadata doc = none := by simp [documentMetadata, hm]
        simp only [List.length_cons, GetRevisionOperation.getRevisionsMetadataForLoop, hslot, hm]
        simpa [hdm] using hrest
      | some fields =>
        simp only [Option.map] at hm
        have hdm : documentMetadata doc = some fields := by simp [documentMetadata, hm]
        simp only [List.length_cons, GetRevisionOperation.getRevisionsMetadataForLoop, hslot, hm]
        simpa [hdm] using hrest

/-- With a document failing `metadataIsObject` among the slots from `i` on, the loop of
getRevisionsMetadataFor is stopped by the type assertion. -/
theorem GetRevisionOperation.getRevisionsMetadataForLoop_bad_metadata (r : JSONArrayResult)
    (ss : List (Option ObjectNode)) :
    ∀ (i : Nat) (acc : List MetadataAsDictionary)
      (o : GetRevisionOperation Clazz Entity Conv Cmd),
      o._result = some r → r.getResults.drop i = ss →
      (∃ d, some d ∈ ss ∧ metadataIsObject d = false) →
      GetRevisionOperation.getRevisionsMetadataForLoop ss.length i acc o =
        (.error .interfaceConversion, o) := by
  induction ss with
  | nil =>
    intro i acc o _ _ hbad
    obtain ⟨d, hd, -⟩ := hbad
    simp at hd
  | cons slot ss ih =>
    intro i acc o hres hds hbad
    obtain ⟨hsi, hds'⟩ := drop_cons_inv r.getResults i slot ss hds
    have hslot : o.resultSlot i = .ok slot := by
      simp [GetRevisionOperation.resultSlot, hres, hsi]
    obtain ⟨d, hd, hdbad⟩ := hbad
    cases slot with
    | none =>
      have htail : some d ∈ ss := by
        rcases List.mem_cons.1 hd with h | h
        · cases h
        · exact h
      simp only [List.length_cons, GetRevisionOperation.getRevisionsMetadataForLoop, hslot]
      exact ih (i + 1) _ o hres hds' ⟨d, htail, hdbad⟩
    | some doc =>
      simp only [List.length_cons, GetRevisionOperation.getRevisionsMetadataForLoop, hslot]
      cases hok : metadataIsObject doc with
      | false =>
        unfold metadataIsObject at hok
        cases hget : mapGet doc Constants_Documents_Metadata_KEY with
        | none => simp [hget] at hok
        | some v =>
          cases v with
          | document fields => simp [hget] at hok
          | null => rfl
          | bool b => rfl
          | number n => rfl
          | string t => rfl
          | sequence xs => rfl
      | true =>
        have htail : some d ∈ ss := by
          rcases List.mem_cons.1 hd with h | h
          · simp only [Option.some.injEq] at h
            rw [h, hok] at hdbad
            cases hdbad
          · exact h
        obtain ⟨metadata, hm⟩ := (metadataIsObject_iff doc).1 hok
        cases metadata with
        | none =>
          simp only [Option.map] at hm
          simp only [hm]
          exact ih (i + 1) _ o hres hds' ⟨d, htail, hdbad⟩
        | some fields =>
          simp only [Option.map] at hm
          simp only [hm]
          exact ih (i + 1) _ o hres hds' ⟨d, htail, hdbad⟩

/-- With a document among the attached slots that binds its metadata key to anything other
than a nested document, getRevisionsMetadataFor is stopped by the type assertion: no views are
returned and the operation is as it was. -/
theorem GetRevisionOperation.getRevisionsMetadataFor_stopped
    (o : GetRevisionOperation Clazz Entity Conv Cmd) (r : JSONArrayResult)
    (hres : o._result = some r)
    (hbad : ∃ d, some d ∈ r.getResults ∧ metadataIsObject d = false) :
    o.getRevisionsMetadataFor = (.error .interfaceConversion, o) := by
  have := GetRevisionOperation.getRevisionsMetadataForLoop_bad_metadata r r.getResults 0 [] o
    hres rfl hbad
  simpa [GetRevisionOperation.getRevisionsMetadataFor, hres] using this

/-- Claim C11 as stated fails: with an attached one-slot result holding a document whose
metadata key is bound to a string, getRevisionsMetadataFor is stopped by the type assertion
and returns no views. -/
theorem getRevisionsMetadataFor_bad_metadata_counterexample :
    (exampleOperation [] [some exampleDocBadMetadata]).getRevisionsMetadataFor.1 =
        .error .interfaceConversion ∧
      ¬ ∃ views,
        (exampleOperation [] [some exampleDocBadMetadata]).getRevisionsMetadataFor.1 =
          .ok views := by
  have h : (exampleOperation [] [some exampleDocBadMetadata]).getRevisionsMetadataFor.1 =
      .error .interfaceConversion := rfl
  rw [h]
  refine ⟨rfl, ?_⟩
  rintro ⟨views, he⟩
  cases he

/-- Claim C11, amended: for every attached result sequence whose non-nil documents have their
metadata key unbound or bound to a nested document, getRevisionsMetadataFor returns one view
per slot, in order; the view of a nil slot and of a document without metadata key is the empty
view, the view of a document with metadata is built from that metadata sub-document alone.
The operation is returned as it was: no converter call is logged and documentsByEntity is
unchanged. -/
theorem getRevisionsMetadataFor_one_view_per_slot
    (o : GetRevisionOperation Clazz Entity Conv Cmd) (r : JSONArrayResult)
    (hres : o._result = some r)
    (hmeta : ∀ d, some d ∈ r.getResults → metadataIsObject d = true) :
    ∃ views : List MetadataAsDictionary,
      o.getRevisionsMetadataFor = (.ok views, o) ∧
      views.length = r.getResults.length ∧
      views = r.getResults.map (fun slot =>
        NewMetadataAsDictionary (slot.bind documentMetadata) none "") ∧
      (∀ i : Nat, r.getResults[i]? = some none →
        views[i]? = some (NewMetadataAsDictionary none none "")) ∧
      (∀ (i : Nat) (doc : ObjectNode), r.getResults[i]? = some (some doc) →
        mapGet doc Constants_Documents_Metadata_KEY = none →
        views[i]? = some (NewMetadataAsDictionary none none "")) ∧
      (∀ (i : Nat) (doc fields : ObjectNode), r.getResults[i]? = some (some doc) →
        mapGet doc Constants_Documents_Metadata_KEY = some (.document fields) →
        views[i]? = some (NewMetadataAsDictionary (some fields) none "")) ∧
      o.getRevisionsMetadataFor.2._session.documentsByEntity = o._session.documentsByEntity ∧
      o.getRevisionsMetadataFor.2._session.convertCalls = o._session.convertCalls := by
  have hrun : o.getRevisionsMetadataFor =
      (.ok (r.getResults.map fun slot =>
        NewMetadataAsDictionary (slot.bind documentMetadata) none ""), o) := by
    have := GetRevisionOperation.getRevisionsMetadataForLoop_spec r r.getResults 0 [] o hres rfl
      hmeta
    simpa [GetRevisionOperation.getRevisionsMetadataFor, hres] using this
  refine ⟨_, hrun, by simp, rfl, ?_, ?_, ?_, by rw [hrun], by rw [hrun]⟩
  · intro i hi
    simp [List.getElem?_map, hi]
  · intro i doc hi hkey
    simp [List.getElem?_map, hi, documentMetadata, hkey]
  · intro i doc fields hi hkey
    simp [List.getElem?_map, hi, documentMetadata, hkey]

/-- Instance of C11 (amended), the example of the spec: the raw document with id orders/1,
change vector A:1 and a business field gives a view exposing id orders/1 and change vector
A:1, and the session is left empty. -/
theorem getRevisionsMetadataFor_one_view_per_slot_witness :
    ∃ view : MetadataAsDictionary,
      (exampleOperation [] [some exampleDocA]).getRevisionsMetadataFor =
        (.ok [view], exampleOperation [] [some exampleDocA]) ∧
      view.get "@id" = some (.string "orders/1") ∧
      view.get "@change-vector" = some (.string "A:1") ∧
      view.get "Name" = none := by
  obtain ⟨views, hrun, -, hviews, -, -, -, -, -⟩ :=
    getRevisionsMetadataFor_one_view_per_slot (exampleOperation [] [some exampleDocA])
      { Results := [some exampleDocA] } rfl
      (by
        intro d hd
        simp only [JSONArrayResult.getResults, List.mem_singleton, Option.some.injEq] at hd
        subst hd
        rfl)
  refine ⟨NewMetadataAsDictionary (documentMetadata exampleDocA) none "", ?_, rfl, rfl, rfl⟩
  rw [hrun, hviews]
  rfl

/-- Claim C12: NewGetRevisionOperationRange fails (with the panic raised by panicIf, returning
no operation, hence no command) exactly when the session is nil or the id is the empty string;
for a non-nil session and a non-empty id it returns the operation on that session, without
result, whose command is NewGetRevisionsCommandRange(id, start, pageSize, metadataOnly). -/
theorem NewGetRevisionOperationRange_precondition
    (session : Option (InMemoryDocumentSessionOperations Clazz Entity Conv Cmd)) (id : String)
    (start pageSize : Int) (metadataOnly : Bool) :
    ((∃ p, NewGetRevisionOperationRange session id start pageSize metadataOnly = .error p) ↔
        (session = none ∨ id = "")) ∧
      (session = none →
        NewGetRevisionOperationRange session id start pageSize metadataOnly =
          .error (.message "Session cannot be null")) ∧
      (session ≠ none → id = "" →
        NewGetRevisionOperationRange session id start pageSize metadataOnly =
          .error (.message "Id cannot be null")) ∧
      (∀ s, session = some s → id ≠ "" →
        NewGetRevisionOperationRange session id start pageSize metadataOnly =
          .ok { _session := s, _result := none,
                _command := NewGetRevisionsCommandRange id start pageSize metadataOnly }) := by
  cases session with
  | none =>
    simp [NewGetRevisionOperationRange, panicIf]
  | some s =>
    by_cases hid : id = ""
    · subst hid
      simp [NewGetRevisionOperationRange, panicIf]
    · simp [NewGetRevisionOperationRange, panicIf, hid]

/-- The command of an operation built by the constructor. -/
theorem NewGetRevisionOperationRange_command
    (session : Option (InMemoryDocumentSessionOperations Clazz Entity Conv Cmd)) (id : String)
    (start pageSize : Int) (metadataOnly : Bool)
    (op : GetRevisionOperation Clazz Entity Conv Cmd)
    (h : NewGetRevisionOperationRange session id start pageSize metadataOnly = .ok op) :
    op._command = NewGetRevisionsCommandRange id start pageSize metadataOnly := by
  cases session with
  | none => simp [NewGetRevisionOperationRange, panicIf] at h
  | some s =>
    by_cases hid : id = ""
    · subst hid
      simp [NewGetRevisionOperationRange, panicIf] at h
    · simp [NewGetRevisionOperationRange, panicIf, hid] at h
      subst h
      rfl

end MetadataProofs

section MapShape

variable {K V : Type} [DecidableEq K]

/-- Assigning to a key keeps the keys of the map when the key is bound, and adds the key at the
end otherwise. -/
theorem mapSet_keys (m : List (K × V)) (k : K) (v : V) :
    (mapSet m k v).map Prod.fst =
      if k ∈ m.map Prod.fst then m.map Prod.fst else m.map Prod.fst ++ [k] := by
  induction m with
  | nil => simp [mapSet]
  | cons p rest ih =>
    obtain ⟨k', v'⟩ := p
    by_cases h : k' = k
    · subst h
      simp [mapSet]
    · have h' : ¬ k = k' := fun hk => h hk.symm
      by_cases hmem : k ∈ rest.map Prod.fst
      · simp only [mapSet, h, if_false, List.map_cons, ih, hmem, if_true, List.mem_cons,
          or_true]
      · simp only [mapSet, h, if_false, List.map_cons, ih, hmem, List.mem_cons, h', or_self,
          List.cons_append]

/-- A bound key is among the keys. -/
theorem mem_keys_of_mapGet (m : List (K × V)) (k : K) (v : V) (h : mapGet m k = some v) :
    k ∈ m.map Prod.fst := by
  induction m with
  | nil => simp [mapGet] at h
  | cons p rest ih =>
    obtain ⟨k', v'⟩ := p
    by_cases hk : k' = k
    · subst hk; simp
    · simp only [mapGet, hk, if_false] at h
      simp [ih h]

/-- A bound key is in the map with its value. -/
theorem mem_of_mapGet (m : List (K × V)) (k : K) (v : V) (h : mapGet m k = some v) :
    (k, v) ∈ m := by
  induction m with
  | nil => simp [mapGet] at h
  | cons p rest ih =>
    obtain ⟨k', v'⟩ := p
    by_cases hk : k' = k
    · subst hk
      simp only [mapGet, if_true, Option.some.injEq] at h
      subst h
      exact List.mem_cons_self _ _
    · simp only [mapGet, hk, if_false] at h
      exact List.mem_cons_of_mem _ (ih h)

/-- Assigning to a bound key keeps the number of entries. -/
theorem mapSet_length_of_bound (m : List (K × V)) (k : K) (v : V)
    (h : k ∈ m.map Prod.fst) : (mapSet m k v).length = m.length := by
  have := congrArg List.length (mapSet_keys m k v)
  simpa [h] using this

/-- Assigning keeps the keys distinct. -/
theorem mapSet_keys_nodup (m : List (K × V)) (k : K) (v : V)
    (h : (m.map Prod.fst).Nodup) : ((mapSet m k v).map Prod.fst).Nodup := by
  rw [mapSet_keys]
  by_cases hmem : k ∈ m.map Prod.fst
  · simpa [hmem] using h
  · simp only [hmem, if_false]
    exact List.Nodup.append h (List.nodup_singleton k) (by simpa using hmem)

/-- After an assignment the key is among the keys. -/
theorem mem_keys_mapSet (m : List (K × V)) (k : K) (v : V) :
    k ∈ (mapSet m k v).map Prod.fst :=
  mem_keys_of_mapGet _ k v (mapGet_mapSet_self m k v)

end MapShape

section IdentityProofs

variable {Clazz Entity Conv Cmd : Type} [DecidableEq Entity] [GoHashable Entity]

/-- A materialization of a non-nil document that returned an entity passed the type assertion
and left the operation described by `getRevision_doc`. -/
theorem GetRevisionOperation.getRevision_ok_inv (x : Externals Clazz Entity Conv)
    (o o' : GetRevisionOperation Clazz Entity Conv Cmd) (clazz : Clazz) (doc : ObjectNode)
    (e : Entity) (h : o.getRevision x clazz (some doc) = (.ok e, o')) :
    e = (x.convertToEntity clazz (documentId x doc) doc o._session.entityToJson).1 ∧
      o'._session.documentsByEntity = mapSet o._session.documentsByEntity e
        { id := documentId x doc,
          changeVector := (documentMetadata doc).bind fun fields =>
            x.jsonGetAsTextPointer fields Constants_Documents_Metadata_CHANGE_VECTOR,
          document := some doc,
          metadata := documentMetadata doc,
          entity := some e } := by
  cases hok : metadataIsObject doc with
  | false =>
    rw [GetRevisionOperation.getRevision_bad_metadata x o clazz doc hok] at h
    cases h
  | true =>
    cases hhash : GoHashable.hashable
        (x.convertToEntity clazz (documentId x doc) doc o._session.entityToJson).1 with
    | false =>
      rw [GetRevisionOperation.getRevision_unhashable x o clazz doc hok hhash] at h
      cases h
    | true =>
      rw [GetRevisionOperation.getRevision_doc x o clazz doc hok hhash] at h
      simp only [Prod.mk.injEq, Except.ok.injEq] at h
      obtain ⟨he, ho⟩ := h
      subst ho
      subst he
      exact ⟨rfl, rfl⟩

/-- Claim C13 as stated fails: entity 7 is tracked under id orders/1; materializing a document
with id orders/2 for which the converter returns entity 7 again raises no error, returns the
entity, and replaces its entry by one with id orders/2. -/
theorem getRevision_identity_conflict_counterexample :
    (mapGet ((exampleOperation [] []).getRevision exampleExternalsOneEntity ()
        (some exampleDocA)).2._session.documentsByEntity 7).map (fun info => info.id) =
        some "orders/1" ∧
      (((exampleOperation [] []).getRevision exampleExternalsOneEntity ()
        (some exampleDocA)).2.getRevision exampleExternalsOneEntity () (some exampleDocB)).1 =
        .ok 7 ∧
      (mapGet (((exampleOperation [] []).getRevision exampleExternalsOneEntity ()
          (some exampleDocA)).2.getRevision exampleExternalsOneEntity ()
            (some exampleDocB)).2._session.documentsByEntity 7).map (fun info => info.id) =
        some "orders/2" :=
  ⟨rfl, rfl, rfl⟩

/-- Claim C13, amended: registering an entity under an id that contradicts the id it is
already tracked under raises no error.  When the converter returns an entity tracked under
another id, getRevision (on a document passing the type assertion) returns that entity and
replaces its identity-map entry by the DocumentInfo of the new registration, with the new id;
the entries of the other entities are left unmodified. -/
theorem getRevision_conflicting_id_overwrites (x : Externals Clazz Entity Conv)
    (o : GetRevisionOperation Clazz Entity Conv Cmd) (clazz : Clazz) (doc : ObjectNode)
    (tracked : DocumentInfo Entity)
    (hmeta : metadataIsObject doc = true)
    (htracked : mapGet o._session.documentsByEntity
      (x.convertToEntity clazz (documentId x doc) doc o._session.entityToJson).1 = some tracked)
    (hconflict : tracked.id ≠ documentId x doc) :
    ∃ entity : Entity,
      entity = (x.convertToEntity clazz (documentId x doc) doc o._session.entityToJson).1 ∧
      (o.getRevision x clazz (some doc)).1 = .ok entity ∧
      mapGet (o.getRevision x clazz (some doc)).2._session.documentsByEntity entity =
        some { id := documentId x doc,
               changeVector := (documentMetadata doc).bind fun fields =>
                 x.jsonGetAsTextPointer fields Constants_Documents_Metadata_CHANGE_VECTOR,
               document := some doc,
               metadata := documentMetadata doc,
               entity := some entity } ∧
      mapGet (o.getRevision x clazz (some doc)).2._session.documentsByEntity entity ≠
        some tracked ∧
      (o.getRevision x clazz (some doc)).2._session.documentsByEntity.length =
        o._session.documentsByEntity.length ∧
      ∀ other, other ≠ entity →
        mapGet (o.getRevision x clazz (some doc)).2._session.documentsByEntity other =
          mapGet o._session.documentsByEntity other := by
  have hhash : GoHashable.hashable
      (x.convertToEntity clazz (documentId x doc) doc o._session.entityToJson).1 = true :=
    o._session.keysHashable _ (mem_of_mapGet _ _ _ htracked)
  have hrun := GetRevisionOperation.getRevision_doc x o clazz doc hmeta hhash
  have hpair : o.getRevision x clazz (some doc) =
      (.ok (x.convertToEntity clazz (documentId x doc) doc o._session.entityToJson).1,
        (o.getRevision x clazz (some doc)).2) := by
    rw [hrun]
  obtain ⟨-, hmap⟩ := GetRevisionOperation.getRevision_ok_inv x o _ clazz doc _ hpair
  refine ⟨_, rfl, by rw [hrun], ?_, ?_, ?_, ?_⟩
  · rw [hmap]
    exact mapGet_mapSet_self _ _ _
  · rw [hmap, mapGet_mapSet_self]
    intro heq
    simp only [Option.some.injEq] at heq
    exact hconflict (by rw [← heq])
  · rw [hmap]
    exact mapSet_length_of_bound _ _ _ (mem_keys_of_mapGet _ _ _ htracked)
  · intro other hne
    rw [hmap]
    exact mapGet_mapSet_other _ _ _ _ hne

/-- Instance of C13 (amended): entity 7, tracked under orders/1, is registered again from the
document with id orders/2; the call returns 7 and the entry now carries orders/2. -/
theorem getRevision_conflicting_id_overwrites_witness :
    ∃ entity : Nat,
      entity = 7 ∧
      (((exampleOperation [] []).getRevision exampleExternalsOneEntity ()
        (some exampleDocA)).2.getRevision exampleExternalsOneEntity () (some exampleDocB)).1 =
        .ok entity ∧
      (mapGet (((exampleOperation [] []).getRevision exampleExternalsOneEntity ()
          (some exampleDocA)).2.getRevision exampleExternalsOneEntity ()
            (some exampleDocB)).2._session.documentsByEntity entity).map (fun info => info.id) =
        some "orders/2" := by
  obtain ⟨entity, hent, hret, hinfo, -, -, -⟩ :=
    getRevision_conflicting_id_overwrites exampleExternalsOneEntity
      ((exampleOperation [] []).getRevision exampleExternalsOneEntity ()
        (some exampleDocA)).2 () exampleDocB
      { id := "orders/1", changeVector := some "A:1", document := some exampleDocA,
        metadata := documentMetadata exampleDocA, entity := some 7 }
      rfl rfl (by decide)
  refine ⟨entity, ?_, hret, ?_⟩
  · rw [hent]; rfl
  · rw [hinfo]; rfl

/-- Claim C14: when two successive materializations return the same entity (the converter
handed out the same instance twice), the second one creates no entry: the identity map, kept
with distinct keys, has as many entries after it as before, exactly one of them under that
entity, and that entry carries the raw document, the metadata and the change vector of the
second registration; the entries of other entities are untouched.  This holds whether or not
the two ids agree. -/
theorem getRevision_same_entity_twice_one_entry (x : Externals Clazz Entity Conv)
    (o o1 o2 : GetRevisionOperation Clazz Entity Conv Cmd) (clazz1 clazz2 : Clazz)
    (doc1 doc2 : ObjectNode) (e : Entity)
    (hnodup : (o._session.documentsByEntity.map Prod.fst).Nodup)
    (h1 : o.getRevision x clazz1 (some doc1) = (.ok e, o1))
    (h2 : o1.getRevision x clazz2 (some doc2) = (.ok e, o2)) :
    o2._session.documentsByEntity.length = o1._session.documentsByEntity.length ∧
      (o2._session.documentsByEntity.map Prod.fst).count e = 1 ∧
      mapGet o2._session.documentsByEntity e =
        some { id := documentId x doc2,
               changeVector := (documentMetadata doc2).bind fun fields =>
                 x.jsonGetAsTextPointer fields Constants_Documents_Metadata_CHANGE_VECTOR,
               document := some doc2,
               metadata := documentMetadata doc2,
               entity := some e } ∧
      ∀ other, other ≠ e →
        mapGet o2._session.documentsByEntity other =
          mapGet o1._session.documentsByEntity other := by
  obtain ⟨-, hmap1⟩ := GetRevisionOperation.getRevision_ok_inv x o o1 clazz1 doc1 e h1
  obtain ⟨-, hmap2⟩ := GetRevisionOperation.getRevision_ok_inv x o1 o2 clazz2 doc2 e h2
  have hmem1 : e ∈ o1._session.documentsByEntity.map Prod.fst := by
    rw [hmap1]; exact mem_keys_mapSet _ _ _
  have hnodup1 : (o1._session.documentsByEntity.map Prod.fst).Nodup := by
    rw [hmap1]; exact mapSet_keys_nodup _ _ _ hnodup
  refine ⟨?_, ?_, ?_, ?_⟩
  · rw [hmap2]
    exact mapSet_length_of_bound _ _ _ hmem1
  · rw [hmap2]
    exact List.count_eq_one_of_mem (mapSet_keys_nodup _ _ _ hnodup1) (mem_keys_mapSet _ _ _)
  · rw [hmap2]
    exact mapGet_mapSet_self _ _ _
  · intro other hne
    rw [hmap2]
    exact mapGet_mapSet_other _ _ _ _ hne

/-- Instance of C14: the document of id orders/1 is materialized, then materialized again as
fetched later, the converter returning entity 7 both times; the map holds one entry, under 7,
with change vector A:2. -/
theorem getRevision_same_entity_twice_one_entry_witness :
    (((exampleOperation [] []).getRevision exampleExternalsOneEntity ()
        (some exampleDocA)).2.getRevision exampleExternalsOneEntity ()
          (some exampleDocARefetched)).2._session.documentsByEntity.length = 1 ∧
      ((((exampleOperation [] []).getRevision exampleExternalsOneEntity ()
        (some exampleDocA)).2.getRevision exampleExternalsOneEntity ()
          (some exampleDocARefetched)).2._session.documentsByEntity.map Prod.fst).count 7 = 1 ∧
      (mapGet (((exampleOperation [] []).getRevision exampleExternalsOneEntity ()
        (some exampleDocA)).2.getRevision exampleExternalsOneEntity ()
          (some exampleDocARefetched)).2._session.documentsByEntity 7).map
            (fun info => (info.id, info.changeVector, info.document)) =
        some ("orders/1", some "A:2", some exampleDocARefetched) := by
  obtain ⟨hlen, hcount, hinfo, -⟩ :=
    getRevision_same_entity_twice_one_entry exampleExternalsOneEntity
      (exampleOperation [] [])
      ((exampleOperation [] []).getRevision exampleExternalsOneEntity () (some exampleDocA)).2
      (((exampleOperation [] []).getRevision exampleExternalsOneEntity ()
        (some exampleDocA)).2.getRevision exampleExternalsOneEntity ()
          (some exampleDocARefetched)).2
      () () exampleDocA exampleDocARefetched 7 (by simp [exampleOperation]) rfl rfl
  refine ⟨?_, hcount, ?_⟩
  · rw [hlen]; rfl
  · rw [hinfo]; rfl

end IdentityProofs

section FrameProofs

variable {Clazz Entity Conv Cmd : Type} [DecidableEq Entity] [GoHashable Entity]

/-- A materialization that fails fails on the type assertion or on the map assignment. -/
theorem GetRevisionOperation.getRevision_error (x : Externals Clazz Entity Conv)
    (o : GetRevisionOperation Clazz Entity Conv Cmd) (clazz : Clazz)
    (document : Option ObjectNode) (p : Panic)
    (h : (o.getRevision x clazz document).1 = .error p) :
    p = .interfaceConversion ∨ p = .unhashableKey := by
  cases document with
  | none => cases h
  | some doc =>
    cases hok : metadataIsObject doc with
    | false =>
      rw [GetRevisionOperation.getRevision_bad_metadata x o clazz doc hok] at h
      simp only [Except.error.injEq] at h
      exact Or.inl h.symm
    | true =>
      cases hhash : GoHashable.hashable
          (x.convertToEntity clazz (documentId x doc) doc o._session.entityToJson).1 with
      | false =>
        rw [GetRevisionOperation.getRevision_unhashable x o clazz doc hok hhash] at h
        simp only [Except.error.injEq] at h
        exact Or.inr h.symm
      | true =>
        rw [GetRevisionOperation.getRevision_doc x o clazz doc hok hhash] at h
        cases h

/-- A materialization returns a value exactly for a nil slot and for a document that passes
the type assertion and is converted into an entity that can be hashed. -/
theorem GetRevisionOperation.getRevision_ok_iff (x : Externals Clazz Entity Conv)
    (o : GetRevisionOperation Clazz Entity Conv Cmd) (clazz : Clazz)
    (slot : Option ObjectNode) :
    (∃ e, (o.getRevision x clazz slot).1 = .ok e) ↔
      (slot = none ∨ ∃ doc, slot = some doc ∧ metadataIsObject doc = true ∧
        GoHashable.hashable
          (x.convertToEntity clazz (documentId x doc) doc o._session.entityToJson).1 = true) := by
  cases slot with
  | none => exact ⟨fun _ => Or.inl rfl, fun _ => ⟨_, rfl⟩⟩
  | some doc =>
    cases hok : metadataIsObject doc with
    | false =>
      rw [GetRevisionOperation.getRevision_bad_metadata x o clazz doc hok]
      constructor
      · rintro ⟨e, he⟩
        cases he
      · rintro (h | ⟨d, hd, hm, -⟩)
        · cases h
        · cases hd
          rw [hok] at hm
          cases hm
    | true =>
      cases hhash : GoHashable.hashable
          (x.convertToEntity clazz (documentId x doc) doc o._session.entityToJson).1 with
      | false =>
        rw [GetRevisionOperation.getRevision_unhashable x o clazz doc hok hhash]
        constructor
        · rintro ⟨e, he⟩
          cases he
        · rintro (h | ⟨d, hd, -, hh⟩)
          · cases h
          · cases hd
            rw [hhash] at hh
            cases hh
      | true =>
        rw [GetRevisionOperation.getRevision_doc x o clazz doc hok hhash]
        exact ⟨fun _ => Or.inr ⟨doc, rfl, hok, hhash⟩, fun _ => ⟨_, rfl⟩⟩

/-- The loop of getRevisionsFor writes neither the attached result nor the command. -/
theorem GetRevisionOperation.getRevisionsForLoop_frame (x : Externals Clazz Entity Conv)
    (clazz : Clazz) (remaining : Nat) :
    ∀ (i : Nat) (acc : List Entity) (o : GetRevisionOperation Clazz Entity Conv Cmd),
      (GetRevisionOperation.getRevisionsForLoop x clazz remaining i acc o).2._result =
          o._result ∧
        (GetRevisionOperation.getRevisionsForLoop x clazz remaining i acc o).2._command =
          o._command := by
  induction remaining with
  | zero => intro i acc o; exact ⟨rfl, rfl⟩
  | succ n ih =>
    intro i acc o
    unfold GetRevisionOperation.getRevisionsForLoop
    cases o.resultSlot i with
    | error p => exact ⟨rfl, rfl⟩
    | ok document =>
      have hf := GetRevisionOperation.getRevision_frame x o clazz document
      rcases hrev : o.getRevision x clazz document with ⟨res, o1⟩
      rw [hrev] at hf
      cases res with
      | error p =>
        simp only [hrev]
        exact hf
      | ok rev =>
        simp only [hrev]
        obtain ⟨h1, h2⟩ := ih (i + 1) (acc ++ [rev]) o1
        exact ⟨h1.trans hf.1, h2.trans hf.2⟩

/-- The loop of getRevisions writes neither the attached result nor the command. -/
theorem GetRevisionOperation.getRevisionsLoop_frame (x : Externals Clazz Entity Conv)
    (clazz : Clazz) (remaining : Nat) :
    ∀ (i : Nat) (acc : List (String × Entity))
      (o : GetRevisionOperation Clazz Entity Conv Cmd),
      (GetRevisionOperation.getRevisionsLoop x clazz remaining i acc o).2._result =
          o._result ∧
        (GetRevisionOperation.getRevisionsLoop x clazz remaining i acc o).2._command =
          o._command := by
  induction remaining with
  | zero => intro i acc o; exact ⟨rfl, rfl⟩
  | succ n ih =>
    intro i acc o
    unfold GetRevisionOperation.getRevisionsLoop
    cases o._command.getChangeVectors[i]? with
    | none => exact ⟨rfl, rfl⟩
    | some changeVector =>
      by_cases hempty : changeVector = ""
      · simp only [hempty, if_true]
        exact ih (i + 1) acc o
      · simp only [hempty, if_false]
        cases o.resultSlot i with
        | error p => exact ⟨rfl, rfl⟩
        | ok v =>
          have hf := GetRevisionOperation.getRevision_frame x o clazz v
          rcases hrev : o.getRevision x clazz v with ⟨res, o1⟩
          rw [hrev] at hf
          cases res with
          | error p =>
            simp only [hrev]
            exact hf
          | ok rev =>
            simp only [hrev]
            obtain ⟨h1, h2⟩ := ih (i + 1) (mapSet acc changeVector rev) o1
            exact ⟨h1.trans hf.1, h2.trans hf.2⟩

/-- No method call writes the command of the operation. -/
theorem OperationCall.apply_command (x : Externals Clazz Entity Conv)
    (call : OperationCall Clazz) (o : GetRevisionOperation Clazz Entity Conv Cmd) :
    (call.apply x o)._command = o._command := by
  cases call with
  | createRequest => rfl
  | setResult result => rfl
  | getRevision clazz document => exact (GetRevisionOperation.getRevision_frame x o clazz document).2
  | getRevisionsFor clazz =>
    show (o.getRevisionsFor x clazz).2._command = o._command
    unfold GetRevisionOperation.getRevisionsFor
    cases o._result with
    | none => rfl
    | some r => exact (GetRevisionOperation.getRevisionsForLoop_frame x clazz _ 0 [] o).2
  | getRevisionsMetadataFor =>
    show o.getRevisionsMetadataFor.2._command = o._command
    unfold GetRevisionOperation.getRevisionsMetadataFor
    cases o._result with
    | none => rfl
    | some r => rw [GetRevisionOperation.getRevisionsMetadataForLoop_frame]
  | getRevision2 clazz =>
    show (o.getRevision2 x clazz).2._command = o._command
    unfold GetRevisionOperation.getRevision2
    cases o._result with
    | none => rfl
    | some r =>
      simp only
      cases o.resultSlot 0 with
      | error p => rfl
      | ok document => exact (GetRevisionOperation.getRevision_frame x o clazz document).2
  | getRevisions clazz =>
    exact (GetRevisionOperation.getRevisionsLoop_frame x clazz _ 0 [] o).2

/-- No serial sequence of method calls writes the command of the operation. -/
theorem OperationCall.run_command (x : Externals Clazz Entity Conv)
    (calls : List (OperationCall Clazz)) (o : GetRevisionOperation Clazz Entity Conv Cmd) :
    (OperationCall.run x calls o)._command = o._command := by
  induction calls generalizing o with
  | nil => rfl
  | cons call calls ih =>
    show (OperationCall.run x calls (call.apply x o))._command = o._command
    rw [ih, OperationCall.apply_command]

/-- Claim C15: for every operation built by NewGetRevisionOperationRange, createRequest returns
the command built at construction, NewGetRevisionsCommandRange(id, start, pageSize,
metadataOnly), after any serial sequence of createRequest, setResult and materialization
calls (returned or panicked); an operation built from the same (id, start, pageSize,
metadataOnly), on whatever session and after whatever calls, yields an equal request. -/
theorem createRequest_is_construction_command (x : Externals Clazz Entity Conv)
    (session : Option (InMemoryDocumentSessionOperations Clazz Entity Conv Cmd)) (id : String)
    (start pageSize : Int) (metadataOnly : Bool)
    (op : GetRevisionOperation Clazz Entity Conv Cmd)
    (h : NewGetRevisionOperationRange session id start pageSize metadataOnly = .ok op) :
    op.createRequest = NewGetRevisionsCommandRange id start pageSize metadataOnly ∧
      (∀ calls : List (OperationCall Clazz),
        (OperationCall.run x calls op).createRequest =
          NewGetRevisionsCommandRange id start pageSize metadataOnly) ∧
      ∀ (session' : Option (InMemoryDocumentSessionOperations Clazz Entity Conv Cmd))
        (op' : GetRevisionOperation Clazz Entity Conv Cmd)
        (calls calls' : List (OperationCall Clazz)),
        NewGetRevisionOperationRange session' id start pageSize metadataOnly = .ok op' →
        (OperationCall.run x calls op).createRequest =
          (OperationCall.run x calls' op').createRequest := by
  have hcmd := NewGetRevisionOperationRange_command session id start pageSize metadataOnly op h
  refine ⟨hcmd, ?_, ?_⟩
  · intro calls
    show (OperationCall.run x calls op)._command = _
    rw [OperationCall.run_command, hcmd]
  · intro session' op' calls calls' h'
    show (OperationCall.run x calls op)._command = (OperationCall.run x calls' op')._command
    rw [OperationCall.run_command, OperationCall.run_command, hcmd,
      NewGetRevisionOperationRange_command session' id start pageSize metadataOnly op' h']

/-- Instance of C15: an operation built for (orders/1, 0, 25, false) still yields that request
after a result was attached and materialized. -/
theorem createRequest_is_construction_command_witness :
    ∃ op : GetRevisionOperation Unit Nat Nat Unit,
      NewGetRevisionOperationRange (some (exampleOperation [] [])._session) "orders/1" 0 25
        false = .ok op ∧
      (OperationCall.run exampleExternals
        [.setResult (some { Results := [some exampleDocA, none] }), .getRevisionsFor (),
         .createRequest, .getRevision2 ()] op).createRequest =
        NewGetRevisionsCommandRange "orders/1" 0 25 false :=
  ⟨_, rfl,
    (createRequest_is_construction_command exampleExternals
      (some (exampleOperation [] [])._session) "orders/1" 0 25 false _ rfl).2.1 _⟩

/-- A materialization never fails on an index. -/
theorem GetRevisionOperation.getRevision_no_index_failure (x : Externals Clazz Entity Conv)
    (o : GetRevisionOperation Clazz Entity Conv Cmd) (clazz : Clazz)
    (document : Option ObjectNode) (k n : Nat) :
    (o.getRevision x clazz document).1 ≠ .error (.indexOutOfRange k n) := by
  intro h
  rcases GetRevisionOperation.getRevision_error x o clazz document _ h with h1 | h1 <;>
    cases h1

/-- Claim C17 as stated fails: the attached result has one slot, yet getRevision2 returns no
value: the document of slot 0 binds its metadata key to a string and the type assertion stops
the call.  No indexing failure is involved. -/
theorem getRevision2_returns_value_counterexample :
    (exampleOperation [] [some exampleDocBadMetadata])._result =
        some { Results := [some exampleDocBadMetadata] } ∧
      0 < [some exampleDocBadMetadata].length ∧
      ((exampleOperation [] [some exampleDocBadMetadata]).getRevision2
        exampleExternals ()).1 = .error .interfaceConversion ∧
      ¬ ∃ e, ((exampleOperation [] [some exampleDocBadMetadata]).getRevision2
        exampleExternals ()).1 = .ok e := by
  have h : ((exampleOperation [] [some exampleDocBadMetadata]).getRevision2
      exampleExternals ()).1 = .error .interfaceConversion := rfl
  refine ⟨rfl, by decide, h, ?_⟩
  rintro ⟨e, he⟩
  rw [h] at he
  cases he

/-- Claim C17, amended: getRevision2 runs without an indexing failure exactly when no result is
attached or the attached result has at least one slot, and it returns a value exactly when no
result is attached, or slot 0 is nil, or slot 0 is a document whose metadata key is unbound or
bound to a nested document and which the converter turns into an entity that can be hashed.
Without result it returns the default value; with a first slot it does what getRevision does
on that slot; with an attached result of zero slots it reads slot 0 out of range and fails
with that index error, the operation untouched, instead of returning the default value. -/
theorem getRevision2_value_and_index_failure (x : Externals Clazz Entity Conv)
    (o : GetRevisionOperation Clazz Entity Conv Cmd) (clazz : Clazz) :
    ((∀ k n : Nat, (o.getRevision2 x clazz).1 ≠ .error (.indexOutOfRange k n)) ↔
        (o._result = none ∨ ∃ r, o._result = some r ∧ 0 < r.getResults.length)) ∧
      ((∃ e, (o.getRevision2 x clazz).1 = .ok e) ↔
        (o._result = none ∨
          ∃ (r : JSONArrayResult) (slot : Option ObjectNode) (rest : List (Option ObjectNode)),
            o._result = some r ∧ r.getResults = slot :: rest ∧
            (slot = none ∨ ∃ doc, slot = some doc ∧ metadataIsObject doc = true ∧
              GoHashable.hashable
                (x.convertToEntity clazz (documentId x doc) doc o._session.entityToJson).1 =
                  true))) ∧
      (o._result = none →
        o.getRevision2 x clazz = (.ok (x.Defaults_defaultValue clazz), o)) ∧
      (∀ (r : JSONArrayResult) (slot : Option ObjectNode) (rest : List (Option ObjectNode)),
        o._result = some r → r.getResults = slot :: rest →
        o.getRevision2 x clazz = o.getRevision x clazz slot) ∧
      (∀ r : JSONArrayResult, o._result = some r → r.getResults.length = 0 →
        o.getRevision2 x clazz = (.error (.indexOutOfRange 0 0), o) ∧
        (o.getRevision2 x clazz).1 ≠ .ok (x.Defaults_defaultValue clazz)) := by
  have hnone : o._result = none →
      o.getRevision2 x clazz = (.ok (x.Defaults_defaultValue clazz), o) := by
    intro h
    simp [GetRevisionOperation.getRevision2, h]
  have hcons : ∀ (r : JSONArrayResult) (slot : Option ObjectNode)
      (rest : List (Option ObjectNode)), o._result = some r → r.getResults = slot :: rest →
      o.getRevision2 x clazz = o.getRevision x clazz slot := by
    intro r slot rest h hr
    simp [GetRevisionOperation.getRevision2, GetRevisionOperation.resultSlot, h, hr]
  have hzero : ∀ r : JSONArrayResult, o._result = some r → r.getResults.length = 0 →
      o.getRevision2 x clazz = (.error (.indexOutOfRange 0 0), o) := by
    intro r h hr
    have hnil : r.getResults = [] := List.length_eq_zero.1 hr
    simp [GetRevisionOperation.getRevision2, GetRevisionOperation.resultSlot, h, hnil]
  refine ⟨⟨?_, ?_⟩, ⟨?_, ?_⟩, hnone, hcons, ?_⟩
  · intro hsafe
    cases hres : o._result with
    | none => exact Or.inl rfl
    | some r =>
      right
      refine ⟨r, rfl, ?_⟩
      by_contra hlen
      have h0 : r.getResults.length = 0 := by omega
      exact hsafe 0 0 (by rw [hzero r hres h0])
  · rintro (h | ⟨r, h, hlen⟩) k n
    · rw [hnone h]
      intro hcontra
      cases hcontra
    · cases hr : r.getResults with
      | nil => simp [hr] at hlen
      | cons slot rest =>
        rw [hcons r slot rest h hr]
        exact GetRevisionOperation.getRevision_no_index_failure x o clazz slot k n
  · rintro ⟨e, he⟩
    cases hres : o._result with
    | none => exact Or.inl rfl
    | some r =>
      right
      cases hr : r.getResults with
      | nil =>
        rw [hzero r hres (by simp [hr])] at he
        cases he
      | cons slot rest =>
        rw [hcons r slot rest hres hr] at he
        exact ⟨r, slot, rest, rfl, hr,
          (GetRevisionOperation.getRevision_ok_iff x o clazz slot).1 ⟨e, he⟩⟩
  · rintro (h | ⟨r, slot, rest, h, hr, hslot⟩)
    · exact ⟨_, by rw [hnone h]⟩
    · rw [hcons r slot rest h hr]
      exact (GetRevisionOperation.getRevision_ok_iff x o clazz slot).2 hslot
  · intro r h hr
    refine ⟨hzero r h hr, ?_⟩
    rw [hzero r h hr]
    intro hcontra
    cases hcontra

/-- Instance of C17 (amended): with the zero-slot result attached getRevision2 fails on index
0, and with the document of the spec in slot 0 it returns entity 1. -/
theorem getRevision2_value_and_index_failure_witness :
    (exampleOperation [] []).getRevision2 exampleExternals () =
        (.error (.indexOutOfRange 0 0), exampleOperation [] []) ∧
      ∃ e, ((exampleOperation [] [some exampleDocA]).getRevision2 exampleExternals ()).1 =
        .ok e :=
  ⟨((getRevision2_value_and_index_failure exampleExternals (exampleOperation [] []) ()).2.2.2.2
      { Results := [] } rfl rfl).1,
    (getRevision2_value_and_index_failure exampleExternals
      (exampleOperation [] [some exampleDocA]) ()).2.1.2
      (Or.inr ⟨{ Results := [some exampleDocA] }, some exampleDocA, [], rfl, rfl,
        Or.inr ⟨exampleDocA, rfl, rfl, rfl⟩⟩)⟩

/-- When every position from `i` on with a non-empty change vector lies within the result
slots, the loop of getRevisions does not fail on an index. -/
theorem GetRevisionOperation.getRevisionsLoop_in_range (x : Externals Clazz Entity Conv)
    (clazz : Clazz) (r : JSONArrayResult) (cvs : List String) (remaining : Nat) :
    ∀ (i : Nat) (acc : List (String × Entity))
      (o : GetRevisionOperation Clazz Entity Conv Cmd),
      o._result = some r → o._command.getChangeVectors = cvs → i + remaining = cvs.length →
      (∀ (j : Nat) (cv : String), i ≤ j → cvs[j]? = some cv → cv ≠ "" →
        j < r.getResults.length) →
      ∀ k n : Nat,
        (GetRevisionOperation.getRevisionsLoop x clazz remaining i acc o).1 ≠
          .error (.indexOutOfRange k n) := by
  induction remaining with
  | zero =>
    intro i acc o _ _ _ _ k n h
    cases h
  | succ m ih =>
    intro i acc o hres hcmd hlen hin k n
    have hi : i < cvs.length := by omega
    have hcv : o._command.getChangeVectors[i]? = some cvs[i] := by
      rw [hcmd]; exact List.getElem?_eq_getElem hi
    unfold GetRevisionOperation.getRevisionsLoop
    simp only [hcv]
    by_cases hempty : cvs[i] = ""
    · simp only [hempty, if_true]
      exact ih (i + 1) acc o hres hcmd (by omega)
        (fun j cv hj => hin j cv (by omega)) k n
    · simp only [hempty, if_false]
      have hir : i < r.getResults.length :=
        hin i cvs[i] (Nat.le_refl i) (List.getElem?_eq_getElem hi) hempty
      have hslot : o.resultSlot i = .ok r.getResults[i] := by
        simp [GetRevisionOperation.resultSlot, hres, List.getElem?_eq_getElem hir]
      simp only [hslot]
      have hf := GetRevisionOperation.getRevision_frame x o clazz r.getResults[i]
      have hne := GetRevisionOperation.getRevision_no_index_failure x o clazz r.getResults[i] k n
      rcases hrev : o.getRevision x clazz r.getResults[i] with ⟨res, o1⟩
      rw [hrev] at hf hne
      cases res with
      | error p =>
        simp only [hrev]
        simpa using hne
      | ok rev =>
        simp only [hrev]
        exact ih (i + 1) (mapSet acc cvs[i] rev) o1 (hf.1.trans hres) (by rw [hf.2]; exact hcmd)
          (by omega) (fun j cv hj => hin j cv (by omega)) k n

/-- When some position from `i` on with a non-empty change vector lies beyond the result slots
and the documents read pass the type assertion and are converted into entities that can be
hashed, the loop of getRevisions fails on an index. -/
theorem GetRevisionOperation.getRevisionsLoop_out_of_range (x : Externals Clazz Entity Conv)
    (clazz : Clazz) (r : JSONArrayResult) (cvs : List String) (remaining : Nat) :
    ∀ (i : Nat) (acc : List (String × Entity))
      (o : GetRevisionOperation Clazz Entity Conv Cmd),
      o._result = some r → o._command.getChangeVectors = cvs → i + remaining = cvs.length →
      (∀ (j : Nat) (cv : String) (doc : ObjectNode), cvs[j]? = some cv → cv ≠ "" →
        r.getResults[j]? = some (some doc) → metadataIsObject doc = true ∧
          ∀ c : Conv, GoHashable.hashable
            (x.convertToEntity clazz (documentId x doc) doc c).1 = true) →
      (∃ (j : Nat) (cv : String), i ≤ j ∧ cvs[j]? = some cv ∧ cv ≠ "" ∧
        r.getResults.length ≤ j) →
      ∃ k : Nat,
        (GetRevisionOperation.getRevisionsLoop x clazz remaining i acc o).1 =
          .error (.indexOutOfRange k r.getResults.length) := by
  induction remaining with
  | zero =>
    intro i acc o _ _ hlen _ hbad
    obtain ⟨j, cv, hij, hj, -, -⟩ := hbad
    have : j < cvs.length := (List.getElem?_eq_some_iff.1 hj).1
    omega
  | succ m ih =>
    intro i acc o hres hcmd hlen hmeta hbad
    obtain ⟨j, cv, hij, hj, hne, hjr⟩ := hbad
    have hi : i < cvs.length := by omega
    have hcv : o._command.getChangeVectors[i]? = some cvs[i] := by
      rw [hcmd]; exact List.getElem?_eq_getElem hi
    unfold GetRevisionOperation.getRevisionsLoop
    simp only [hcv]
    by_cases hempty : cvs[i] = ""
    · simp only [hempty, if_true]
      have hji : j ≠ i := by
        intro h
        subst h
        rw [List.getElem?_eq_getElem hi] at hj
        simp only [Option.some.injEq] at hj
        exact hne (hj ▸ hempty)
      exact ih (i + 1) acc o hres hcmd (by omega) hmeta ⟨j, cv, by omega, hj, hne, hjr⟩
    · simp only [hempty, if_false]
      by_cases hir : i < r.getResults.length
      · have hslot : o.resultSlot i = .ok r.getResults[i] := by
          simp [GetRevisionOperation.resultSlot, hres, List.getElem?_eq_getElem hir]
        simp only [hslot]
        obtain ⟨e, o1, hrev, hres1, hcmd1, -⟩ :=
          GetRevisionOperation.getRevision_slot x o clazz r.getResults[i]
            (fun d hd =>
              ⟨(hmeta i cvs[i] d (List.getElem?_eq_getElem hi) hempty
                (by rw [List.getElem?_eq_getElem hir, hd])).1,
                (hmeta i cvs[i] d (List.getElem?_eq_getElem hi) hempty
                  (by rw [List.getElem?_eq_getElem hir, hd])).2 _⟩)
        simp only [hrev]
        exact ih (i + 1) (mapSet acc cvs[i] e) o1 (hres1.trans hres) (by rw [hcmd1]; exact hcmd)
          (by omega) hmeta ⟨j, cv, by omega, hj, hne, hjr⟩
      · have hslot : o.resultSlot i = .error (.indexOutOfRange i r.getResults.length) := by
          have : r.getResults[i]? = none := List.getElem?_eq_none (by omega)
          simp [GetRevisionOperation.resultSlot, hres, this]
        simp only [hslot]
        exact ⟨i, rfl⟩

/-- Claim C18 as stated fails: for the request ["cv-1", "cv-2"] and a one-slot result, position
1 holds a non-empty change vector and lies beyond the result slots, yet getRevisions performs
no out-of-range access, because it is stopped at position 0: by the type assertion when the
document of slot 0 binds its metadata key to a string, and by the assignment to the identity
map when the converter returns a slice. -/
theorem getRevisions_index_safety_counterexample :
    (¬ ∀ (i : Nat) (cv : String), ["cv-1", "cv-2"][i]? = some cv → cv ≠ "" →
        i < [some exampleDocBadMetadata].length) ∧
      (((exampleOperation ["cv-1", "cv-2"] [some exampleDocBadMetadata]).getRevisions
          exampleExternals ()).1 = .error .interfaceConversion ∧
        ∀ k n : Nat,
          ((exampleOperation ["cv-1", "cv-2"] [some exampleDocBadMetadata]).getRevisions
            exampleExternals ()).1 ≠ .error (.indexOutOfRange k n)) ∧
      (((exampleSliceOperation ["cv-1", "cv-2"] [some exampleDocA]).getRevisions
          exampleExternalsSlice ()).1 = .error .unhashableKey ∧
        ∀ k n : Nat,
          ((exampleSliceOperation ["cv-1", "cv-2"] [some exampleDocA]).getRevisions
            exampleExternalsSlice ()).1 ≠ .error (.indexOutOfRange k n)) := by
  have h : ((exampleOperation ["cv-1", "cv-2"] [some exampleDocBadMetadata]).getRevisions
      exampleExternals ()).1 = .error .interfaceConversion := rfl
  have h' : ((exampleSliceOperation ["cv-1", "cv-2"] [some exampleDocA]).getRevisions
      exampleExternalsSlice ()).1 = .error .unhashableKey := rfl
  refine ⟨?_, ⟨h, ?_⟩, h', ?_⟩
  · intro hall
    have := hall 1 "cv-2" rfl (by decide)
    simp at this
  · intro k n hcontra
    rw [h] at hcontra
    cases hcontra
  · intro k n hcontra
    rw [h'] at hcontra
    cases hcontra

/-- Claim C18, amended: with a result attached, getRevisions performs no out-of-range slot
access whenever every position holding a non-empty requested change vector lies within the
result slots, in particular whenever the result sequence is at least as long as the requested
list; and when the documents at such positions have their metadata key unbound or bound to a
nested document and are turned by the converter into entities that can be hashed, it performs
no out-of-range slot access exactly when every such position lies within the result slots.
A request with no change vectors yields the empty map and leaves the operation as it was;
this is so for every operation built by the range constructor, whatever calls were made on
it. -/
theorem getRevisions_index_safety (x : Externals Clazz Entity Conv)
    (o : GetRevisionOperation Clazz Entity Conv Cmd) (clazz : Clazz) :
    (∀ r : JSONArrayResult, o._result = some r →
      ((∀ (i : Nat) (cv : String), o._command.getChangeVectors[i]? = some cv → cv ≠ "" →
          i < r.getResults.length) →
        ∀ k n : Nat, (o.getRevisions x clazz).1 ≠ .error (.indexOutOfRange k n)) ∧
      (o._command.getChangeVectors.length ≤ r.getResults.length →
        ∀ k n : Nat, (o.getRevisions x clazz).1 ≠ .error (.indexOutOfRange k n)) ∧
      ((∀ (i : Nat) (cv : String) (doc : ObjectNode),
          o._command.getChangeVectors[i]? = some cv → cv ≠ "" →
          r.getResults[i]? = some (some doc) → metadataIsObject doc = true ∧
            ∀ c : Conv, GoHashable.hashable
              (x.convertToEntity clazz (documentId x doc) doc c).1 = true) →
        ((∀ k n : Nat, (o.getRevisions x clazz).1 ≠ .error (.indexOutOfRange k n)) ↔
          ∀ (i : Nat) (cv : String), o._command.getChangeVectors[i]? = some cv → cv ≠ "" →
            i < r.getResults.length))) ∧
      (o._command.getChangeVectors = [] → o.getRevisions x clazz = (.ok [], o)) ∧
      ∀ (session : Option (InMemoryDocumentSessionOperations Clazz Entity Conv Cmd))
        (id : String) (start pageSize : Int) (metadataOnly : Bool)
        (op : GetRevisionOperation Clazz Entity Conv Cmd) (calls : List (OperationCall Clazz)),
        NewGetRevisionOperationRange session id start pageSize metadataOnly = .ok op →
        (OperationCall.run x calls op).getRevisions x clazz =
          (.ok [], OperationCall.run x calls op) := by
  have hempty : ∀ o' : GetRevisionOperation Clazz Entity Conv Cmd,
      o'._command.getChangeVectors = [] → o'.getRevisions x clazz = (.ok [], o') := by
    intro o' h
    simp [GetRevisionOperation.getRevisions, h, GetRevisionOperation.getRevisionsLoop]
  refine ⟨?_, hempty o, ?_⟩
  · intro r hres
    have hsafe : (∀ (i : Nat) (cv : String), o._command.getChangeVectors[i]? = some cv →
        cv ≠ "" → i < r.getResults.length) →
        ∀ k n : Nat, (o.getRevisions x clazz).1 ≠ .error (.indexOutOfRange k n) := by
      intro hin k n
      exact GetRevisionOperation.getRevisionsLoop_in_range x clazz r
        o._command.getChangeVectors o._command.getChangeVectors.length 0 [] o hres rfl
        (by omega) (fun j cv _ hj hne => hin j cv hj hne) k n
    refine ⟨hsafe, ?_, ?_⟩
    · intro hlen
      apply hsafe
      intro i cv hi _
      have : i < o._command.getChangeVectors.length := (List.getElem?_eq_some_iff.1 hi).1
      omega
    · intro hmeta
      refine ⟨?_, hsafe⟩
      intro hno i cv hi hne
      by_contra hout
      obtain ⟨k, hk⟩ := GetRevisionOperation.getRevisionsLoop_out_of_range x clazz r
        o._command.getChangeVectors o._command.getChangeVectors.length 0 [] o hres rfl
        (by omega) hmeta ⟨i, cv, Nat.zero_le i, hi, hne, by omega⟩
      exact hno k r.getResults.length hk
  · intro session id start pageSize metadataOnly op calls hop
    apply hempty
    rw [OperationCall.run_command,
      NewGetRevisionOperationRange_command session id start pageSize metadataOnly op hop]
    rfl

/-- Instance of C18 (amended): the request ["", "cv-1", "cv-2"] with three result slots is
served without index failure, and the request ["", "cv-1"] with a single slot fails on index
1. -/
theorem getRevisions_index_safety_witness :
    (∀ k n : Nat,
      ((exampleOperation ["", "cv-1", "cv-2"]
        [some exampleDocBadMetadata, some exampleDocA, none]).getRevisions
          exampleExternals ()).1 ≠ .error (.indexOutOfRange k n)) ∧
      ((exampleOperation ["", "cv-1"] [some exampleDocA]).getRevisions
        exampleExternals ()).1 = .error (.indexOutOfRange 1 1) :=
  ⟨((getRevisions_index_safety exampleExternals
      (exampleOperation ["", "cv-1", "cv-2"]
        [some exampleDocBadMetadata, some exampleDocA, none]) ()).1
      { Results := [some exampleDocBadMetadata, some exampleDocA, none] } rfl).2.1
      (by decide),
    rfl⟩

end FrameProofs

section ExtensionProofs

variable {Clazz Entity Conv Cmd Ref : Type} [GoHashable Entity]

/-- Claim C16: deferMany forwards the command list unchanged to the owning session
(DeferMany), whose deferred-command queue becomes the old queue followed by the commands in
the order given; two calls queue the first list before the second.  The other seven fields of
the extension and the rest of the session are as before. -/
theorem deferMany_appends_in_order
    (e : AdvancedSessionExtentionBase Clazz Entity Conv Cmd Ref) (commands : List Cmd) :
    (e.deferMany commands).session = e.session.DeferMany commands ∧
      (e.deferMany commands).session.deferredCommands =
        e.session.deferredCommands ++ commands ∧
      (∀ more : List Cmd, ((e.deferMany commands).deferMany more).session.deferredCommands =
        e.session.deferredCommands ++ commands ++ more) ∧
      ((e.deferMany commands).documentsByEntity = e.documentsByEntity ∧
        (e.deferMany commands).requestExecutor = e.requestExecutor ∧
        (e.deferMany commands).sessionInfo = e.sessionInfo ∧
        (e.deferMany commands).documentStore = e.documentStore ∧
        (e.deferMany commands).deferredCommandsMap = e.deferredCommandsMap ∧
        (e.deferMany commands).deletedEntities = e.deletedEntities ∧
        (e.deferMany commands).documentsById = e.documentsById) ∧
      ((e.deferMany commands).session.documentsByEntity = e.session.documentsByEntity ∧
        (e.deferMany commands).session.entityToJson = e.session.entityToJson ∧
        (e.deferMany commands).session.convertCalls = e.session.convertCalls) :=
  ⟨rfl, rfl, fun _ => rfl, ⟨rfl, rfl, rfl, rfl, rfl, rfl, rfl⟩, ⟨rfl, rfl, rfl⟩⟩

end ExtensionProofs

end Ravendb
